import Mathlib

/-!
Verification of the ReadyPlayer.me GLB download add-on
(`readyplayer_me.py`), shallowly embedded in Lean 4.

The operator `ReadyPlayerDownloadOperator.execute` reads the scene
properties, builds a request URL with `urllib.parse.urlencode`, streams
the response to a file in 1 MiB chunks while storing a progress
percentage into the clamped scene property `download_progress`
(an IntProperty with min 0, max 100), and finally imports the file.
All exceptions inside the try block are caught and reported as a single
ERROR message; the operator then still returns FINISHED.

Machine-level details are embedded as follows: byte strings are
represented by their lengths (the code only ever measures `len(chunk)`),
the float expression `int(downloaded / total * 100)` is embedded by an
exact integer implementation of IEEE-754 binary64 arithmetic
(round-to-nearest, ties to even, with subnormals and overflow), since
CPython's double arithmetic differs from exact rational arithmetic at
reachable inputs (`int(29 / 100 * 100)` is `28`, not `29`), and the
network / filesystem are an explicit `World` value recording what the
single `urlopen` call and the import step would have produced.
-/

/-- The scene properties read by the operator (registered in `register`). -/
structure Scene where
  readyplayer_url : String
  readyplayer_pose : String
  morph_target_arkit : Bool
  morph_target_oculus_visemes : Bool
  morph_target_mouth_smile : Bool
  morph_target_mouth_open : Bool
deriving DecidableEq

/-- Lines 19-26: the morph-target list is built from the four toggles in
checklist order; note the source appends the literal `"Oculus Visemes"`,
with a space. -/
def morphTargets (s : Scene) : List String :=
  (if s.morph_target_arkit then ["ARKit"] else []) ++
  (if s.morph_target_oculus_visemes then ["Oculus Visemes"] else []) ++
  (if s.morph_target_mouth_smile then ["mouthSmile"] else []) ++
  (if s.morph_target_mouth_open then ["mouthOpen"] else [])

/-- Python's `str.strip()`: removes leading and trailing whitespace. -/
def pyStrip (s : String) : String :=
  String.mk (((s.toList.dropWhile Char.isWhitespace).reverse.dropWhile
    Char.isWhitespace).reverse)

/-- Python's `str.upper()` on the ASCII strings this add-on handles. -/
def pyUpper (s : String) : String :=
  String.mk (s.toList.map Char.toUpper)

/-- A character CPython's `urllib.parse.quote` never escapes:
ASCII letters, digits, and `_ . - ~`. -/
def alwaysSafe (c : Char) : Bool :=
  c.isAlpha || c.isDigit || c = '_' || c = '.' || c = '-' || c = '~'

/-- Uppercase hexadecimal digit, as used by `urllib.parse.quote`. -/
def hexChar (n : Nat) : Char :=
  if n < 10 then Char.ofNat (n + 48) else Char.ofNat (n + 55)

/-- Percent-encoding of one byte: `%XX` with uppercase hex. -/
def percentByte (b : Nat) : List Char :=
  ['%', hexChar (b / 16), hexChar (b % 16)]

/-- UTF-8 encoding of a character, as CPython encodes non-safe
characters before percent-escaping them. -/
def utf8Bytes (c : Char) : List Nat :=
  let n := c.toNat
  if n < 128 then [n]
  else if n < 2048 then [192 + n / 64, 128 + n % 64]
  else if n < 65536 then [224 + n / 4096, 128 + (n / 64) % 64, 128 + n % 64]
  else [240 + n / 262144, 128 + (n / 4096) % 64, 128 + (n / 64) % 64, 128 + n % 64]

/-- `urllib.parse.quote_plus` on one character with `safe=""`
(the default used by `urlencode`): a space becomes `+`, safe characters
stay, everything else is percent-encoded byte by byte. -/
def quotePlusChar (c : Char) : List Char :=
  if c = ' ' then ['+']
  else if alwaysSafe c then [c]
  else ((utf8Bytes c).map percentByte).flatten

/-- `urllib.parse.quote_plus` with `safe=""`. -/
def quotePlus (s : String) : String :=
  String.mk ((s.toList.map quotePlusChar).flatten)

/-- `urllib.parse.urlencode` on an association list (Python dicts keep
insertion order): `k=v` pairs, keys and values `quote_plus`-encoded,
joined by `&`. -/
def urlencode : List (String × String) → String
  | [] => ""
  | [kv] => quotePlus kv.1 ++ "=" ++ quotePlus kv.2
  | kv :: rest => quotePlus kv.1 ++ "=" ++ quotePlus kv.2 ++ "&" ++ urlencode rest

/-- Lines 29-33: the query dict gets `morphTargets` (comma-joined list)
when at least one toggle is set, then `pose` when the pose string is
non-empty. -/
def queryParams (morphs : List String) (pose : String) : List (String × String) :=
  (if morphs = [] then [] else [("morphTargets", String.intercalate "," morphs)]) ++
  (if pose = "" then [] else [("pose", pose)])

/-- Line 36: the encoded query string of a scene.  The pose string is
uppercased at line 16 before use. -/
def queryString (s : Scene) : String :=
  urlencode (queryParams (morphTargets s) (pyUpper s.readyplayer_pose))

/-- Line 39: `final_url = f"{base_url}?{query_string}"`, where
`base_url = scene.readyplayer_url.strip()` (line 14). -/
def finalURL (s : Scene) : String :=
  pyStrip s.readyplayer_url ++ "?" ++ queryString s

/-- Python's `str.split` with a one-character separator: every occurrence
of the separator cuts, empty segments are kept, and the result is never
the empty list. -/
def pySplit (sep : Char) : List Char → List (List Char)
  | [] => [[]]
  | c :: cs =>
      match pySplit sep cs with
      | [] => [[]]
      | h :: t => if c = sep then [] :: h :: t else (c :: h) :: t

/-- Line 44: `filename = final_url.split("/")[-1].split("?")[0]`. -/
def deriveFilename (u : String) : String :=
  String.mk ((pySplit '?' ((pySplit '/' u.toList).getLastD [])).headD [])

/-- Decimal digits of a numeral, most significant first; `none` when the
character list is empty or holds a non-digit. -/
def parseDigits : List Char → Option Nat
  | [] => none
  | l => l.foldl (fun acc c =>
      match acc with
      | none => none
      | some n => if c.isDigit then some (n * 10 + (c.toNat - 48)) else none)
      (some 0)

/-- Python's `int(...)` on an already-stripped string: optional sign then
decimal digits; `none` models the `ValueError` raised otherwise. -/
def pyInt (s : String) : Option Int :=
  match s.toList with
  | '-' :: rest => (parseDigits rest).map (fun n => -(n : Int))
  | '+' :: rest => (parseDigits rest).map (fun n => (n : Int))
  | l => (parseDigits l).map (fun n => (n : Int))

/-- One `response.read(chunk_size)` event inside the download loop: a
chunk of the given byte length, or an exception (read fault or write
fault) raised during that iteration. -/
inductive ChunkEvent where
  | ok (size : Nat)
  | fault (cause : String)
deriving DecidableEq

/-- Assignment to `scene.download_progress` (lines 142-148): the
IntProperty clamps stored values to its declared range `[0, 100]`. -/
def clampProgress (v : Int) : Int :=
  max 0 (min 100 v)

/-- Nearest integer to `P / Q` (for `Q > 0`), ties to even: the rounding
used by IEEE-754 binary64 arithmetic. -/
def ne2 (P Q : Nat) : Nat :=
  if 2 * (P % Q) < Q then P / Q
  else if Q < 2 * (P % Q) then P / Q + 1
  else if (P / Q) % 2 = 0 then P / Q else P / Q + 1

/-- Fuel-driven base-2 logarithm (structural recursion, so that the
kernel can evaluate it; the fuel is consumed once per halving). -/
def log2fuel : Nat → Nat → Nat
  | 0, _ => 0
  | fuel + 1, n => if 2 ≤ n then log2fuel fuel (n / 2) + 1 else 0

/-- Base-2 logarithm; its defining bounds are proved below. -/
def myLog2 (n : Nat) : Nat := log2fuel n n

/-- Whether `2 ^ j ≤ P / Q` as rationals, for an integer `j`. -/
def geTwoPow0 (P Q : Nat) (j : Int) : Bool :=
  if 0 ≤ j then decide (Q * 2 ^ j.toNat ≤ P) else decide (Q ≤ P * 2 ^ (-j).toNat)

/-- The binade of `P / Q`: the integer `k` with `2 ^ k ≤ P / Q < 2 ^ (k + 1)`
(for `P, Q > 0`), located from `Nat.log2` and one correction test. -/
def findK0 (P Q : Nat) : Int :=
  let k0 : Int := (myLog2 P : Int) - (myLog2 Q : Int)
  if geTwoPow0 P Q k0 then k0 else k0 - 1

/-- The fraction `(P / Q) / 2 ^ e` written with natural numerator and
denominator. -/
def scaled (P Q : Nat) (e : Int) : Nat × Nat :=
  if 0 ≤ e then (P, Q * 2 ^ e.toNat) else (P * 2 ^ (-e).toNat, Q)

/-- A non-negative CPython float magnitude: a finite dyadic `m * 2 ^ e`,
or infinity. -/
inductive PyFloat where
  | finite (m : Nat) (e : Int)
  | inf
deriving DecidableEq

/-- Overflow test: whether `m * 2 ^ e ≥ 2 ^ 1024`, the smallest magnitude
that is not a finite binary64 value. -/
def ovf (m : Nat) (e : Int) : Bool :=
  if 0 ≤ e then decide (2 ^ 1024 ≤ m * 2 ^ e.toNat)
  else decide (2 ^ 1024 * 2 ^ (-e).toNat ≤ m)

/-- Correctly rounded conversion of the non-negative rational `P / Q`
(`Q > 0`) to binary64: pick the scale `e` from the binade (clamped at the
subnormal scale `-1074`), round the scaled significand to nearest-even,
and overflow to infinity past `2 ^ 1024`. -/
def roundF0 (P Q : Nat) : PyFloat :=
  if P = 0 then PyFloat.finite 0 0
  else
    let e : Int := max (findK0 P Q - 52) (-1074)
    let s := scaled P Q e
    let m := ne2 s.1 s.2
    if ovf m e then PyFloat.inf else PyFloat.finite m e

/-- The exact product `(m * 2 ^ e) * 100` written with natural numerator
and denominator. -/
def mulArgs (m : Nat) (e : Int) : Nat × Nat :=
  if 0 ≤ e then (m * 100 * 2 ^ e.toNat, 1) else (m * 100, 2 ^ (-e).toNat)

/-- CPython float multiplication of a binary64 magnitude by 100
(correctly rounded). -/
def pyMul100 : PyFloat → PyFloat
  | PyFloat.inf => PyFloat.inf
  | PyFloat.finite m e => roundF0 (mulArgs m e).1 (mulArgs m e).2

/-- CPython `int()` on a non-negative float magnitude: truncation, or
`none` for the `OverflowError` raised on infinity. -/
def truncF : PyFloat → Option Nat
  | PyFloat.inf => none
  | PyFloat.finite m e => some (if 0 ≤ e then m * 2 ^ e.toNat else m / 2 ^ (-e).toNat)

/-- Lines 64-65: `int(downloaded / total * 100)` in CPython double
arithmetic (`total ≠ 0`): the true division `downloaded / total` is
correctly rounded to binary64 (raising `OverflowError` when the quotient
exceeds the float range), the product with 100 is correctly rounded
(overflowing to infinity), and `int()` truncates toward zero (raising
`OverflowError` on infinity). -/
def pyProgressExc (downloaded : Nat) (total : Int) : Except String Int :=
  match roundF0 downloaded total.natAbs with
  | PyFloat.inf =>
      Except.error "OverflowError: integer division result too large for a float"
  | PyFloat.finite m e =>
      match truncF (pyMul100 (PyFloat.finite m e)) with
      | none => Except.error "OverflowError: cannot convert float infinity to integer"
      | some n => Except.ok (if total < 0 then -(n : Int) else (n : Int))

/-- The value of one progress computation: the `Except.ok` payload, or 0
(unused) on an exception. -/
def exVal : Except String Int → Int
  | Except.ok v => v
  | Except.error _ => 0

/-- Line 65: the float progress percentage stored into the clamped
property, or the exception message that aborts the loop instead. -/
def storedProgress (downloaded : Nat) (total : Int) : Except String Int :=
  Except.map clampProgress (pyProgressExc downloaded total)

/-- The exact rational value of the finite binary64 magnitude `m * 2 ^ e`. -/
def qVal (m : Nat) (e : Int) : ℚ := (m : ℚ) * (2 : ℚ) ^ e

/-- Value order on float magnitudes, with infinity on top. -/
def pfLe : PyFloat → PyFloat → Prop
  | _, PyFloat.inf => True
  | PyFloat.inf, PyFloat.finite _ _ => False
  | PyFloat.finite m1 e1, PyFloat.finite m2 e2 => qVal m1 e1 ≤ qVal m2 e2

/-- The progress percentage as the amended claim words it: the CPython
double computation `int(min(bytesSoFar, N) / N * 100)`. -/
def specPct (bytesSoFar N : Nat) : Int :=
  exVal (pyProgressExc (min bytesSoFar N) ((N : Nat) : Int))

/-- Outcome of the read/write loop: the chunk sizes written to the
destination file (in order), the successive values stored into
`scene.download_progress`, and the exception that aborted the loop, if
any.  On a fault the partially written list is kept: the file is left in
place. -/
structure LoopOut where
  written : List Nat
  trace : List Int
  fault : Option String
deriving DecidableEq

/-- Lines 56-67: the download loop.  An empty chunk breaks the loop; a
non-empty chunk is written, the byte counter incremented, and the
progress percentage computed and stored (a zero `total` raises
`ZeroDivisionError` at line 64, after the chunk was written; an
`OverflowError` from the float computation likewise aborts after the
write). -/
def downloadLoop (total : Int) (downloaded : Nat) (written : List Nat)
    (trace : List Int) : List ChunkEvent → LoopOut
  | [] => ⟨written, trace, none⟩
  | ChunkEvent.fault c :: _ => ⟨written, trace, some c⟩
  | ChunkEvent.ok n :: rest =>
      if n = 0 then ⟨written, trace, none⟩
      else
        if total = 0 then
          ⟨written ++ [n], trace, some "ZeroDivisionError: division by zero"⟩
        else
          match storedProgress (downloaded + n) total with
          | Except.error msg => ⟨written ++ [n], trace, some msg⟩
          | Except.ok v =>
              downloadLoop total (downloaded + n) (written ++ [n])
                (trace ++ [v]) rest

/-- What the single `urllib.request.urlopen` call yields: a response
(its `Content-Length` header, when present, and the chunk events its
body produces), or a raised exception (connection failure, or the
`HTTPError` of a non-2xx status). -/
structure Response where
  contentLength : Option String
  chunks : List ChunkEvent
deriving DecidableEq

inductive UrlopenResult where
  | conn (resp : Response)
  | fail (cause : String)
deriving DecidableEq

/-- The external world of one invocation: what `urlopen` would produce,
and the exception message of `bpy.ops.import_scene.gltf`, if it would
raise (`none` = import succeeds). -/
structure World where
  urlopen : UrlopenResult
  importFault : Option String
deriving DecidableEq

/-- Operator return status. -/
inductive Status where
  | FINISHED
  | CANCELLED
deriving DecidableEq

/-- Observable outcome of `execute`: the return status, the URLs passed
to `urlopen` (in order), the destination file if one was created
(filename and the chunk sizes it holds, possibly partial), the successive
values stored into `scene.download_progress`, and the ERROR report, if
any. -/
structure ExecResult where
  status : Status
  requests : List String
  file : Option (String × List Nat)
  progressTrace : List Int
  error : Option String
deriving DecidableEq

/-- Line 75: the message prefix of the catch-all ERROR report. -/
def errPrefix : String := "Failed to download or import GLB file: "

/-- `ReadyPlayerDownloadOperator.execute` (lines 12-77).  The guard at
line 40 tests `final_url`, which already contains the `?` appended at
line 39.  `total_size` is parsed at line 50 before the destination file
is opened, so a missing or malformed `Content-Length` aborts before any
file exists; a loop fault leaves the partial file; an import fault leaves
the complete file.  Every caught exception is reported with `errPrefix`
and the operator returns FINISHED. -/
def execute (s : Scene) (w : World) : ExecResult :=
  let final_url := finalURL s
  if final_url = "" then
    ⟨Status.CANCELLED, [], none, [], some "URL is empty. Please enter a valid URL."⟩
  else
    let filename := deriveFilename final_url
    match w.urlopen with
    | UrlopenResult.fail cause =>
        ⟨Status.FINISHED, [final_url], none, [], some (errPrefix ++ cause)⟩
    | UrlopenResult.conn resp =>
      match resp.contentLength with
      | none =>
          ⟨Status.FINISHED, [final_url], none, [],
            some (errPrefix ++ "AttributeError: NoneType object has no attribute strip")⟩
      | some header =>
        match pyInt (pyStrip header) with
        | none =>
            ⟨Status.FINISHED, [final_url], none, [],
              some (errPrefix ++ "ValueError: invalid literal for int")⟩
        | some total =>
          let out := downloadLoop total 0 [] [] resp.chunks
          match out.fault with
          | some c =>
              ⟨Status.FINISHED, [final_url], some (filename, out.written),
                out.trace, some (errPrefix ++ c)⟩
          | none =>
            match w.importFault with
            | some c =>
                ⟨Status.FINISHED, [final_url], some (filename, out.written),
                  out.trace, some (errPrefix ++ c)⟩
            | none =>
                ⟨Status.FINISHED, [final_url], some (filename, out.written),
                  out.trace, none⟩

/-- Running byte counter: the value of `downloaded_size` after each
iteration that wrote a chunk, starting from counter value `acc`. -/
def prefixAux (acc : Nat) : List Nat → List Nat
  | [] => []
  | n :: rest => (acc + n) :: prefixAux (acc + n) rest

/-- The query string as the amended claim words it: the comma-joined
morph-target list, `quote_plus`-encoded, under `morphTargets=` when at
least one tag is selected; the encoded pose under `pose=` when the pose
string is non-empty; the two parts joined by `&` when both are present. -/
def specQuery (morphs : List String) (pose : String) : String :=
  let mp := "morphTargets=" ++ quotePlus (String.intercalate "," morphs)
  let pp := "pose=" ++ quotePlus pose
  if morphs = [] then (if pose = "" then "" else pp)
  else (if pose = "" then mp else mp ++ "&" ++ pp)

/-- The destination filename as the claim words it: the text after the
last `/` of the URL, with everything from the first following `?`
onward stripped. -/
def specFilename (u : String) : String :=
  String.mk (((u.toList.reverse.takeWhile (fun c => c != '/')).reverse).takeWhile
    (fun c => c != '?'))

/-- A pose bone of the imported armature: its name, rotation mode, and
Euler rotation angles. -/
structure PoseBone where
  name : String
  rotation_mode : String
  rotation_euler : Int × Int × Int
deriving DecidableEq

/-- Modelled from the spec: the fixed list of joint names the pose
normalizer touches (reference list: left and right upper-arm joints).
The normalization code itself is absent from `src/`; only its caller,
the post-import step of `execute`, is present. -/
def fixedJointNames : List String := ["LeftArm", "RightArm"]

/-- Modelled from the spec: `normalizeToTPose` enters pose mode, and for
each name in `fixedJointNames` that exists on the skeleton sets that
bone's rotation mode to Euler (`"XYZ"`) and its three axis angles to
zero; bones with other names are untouched, missing names are skipped
silently. -/
def normalizeToTPose (bones : List PoseBone) : List PoseBone :=
  bones.map (fun b =>
    if fixedJointNames.contains b.name then
      { b with rotation_mode := "XYZ", rotation_euler := (0, 0, 0) }
    else b)

/-- Modelled from the spec: the post-import step runs the normalizer on
the imported skeleton exactly when the selected pose identifier is `T`;
when the import produced no skeletal object nothing happens and no
failure occurs. -/
def postImport (pose : String) (skeleton : Option (List PoseBone)) :
    Option (List PoseBone) :=
  if pose = "T" then skeleton.map normalizeToTPose else skeleton

/-! ### Helper lemmas -/

theorem finalURL_ne_empty (s : Scene) : finalURL s ≠ "" := by
  intro h
  have hlen := congrArg String.length h
  simp only [finalURL, String.length_append, String.length_empty] at hlen
  have h1 : ("?" : String).length = 1 := rfl
  omega

theorem pySplit_ne_nil (sep : Char) (l : List Char) : pySplit sep l ≠ [] := by
  cases l with
  | nil => simp [pySplit]
  | cons c cs =>
    rcases hr : pySplit sep cs with _ | ⟨h, t⟩
    · simp [pySplit, hr]
    · simp only [pySplit, hr]
      split <;> simp

theorem pySplit_headD (sep : Char) (l : List Char) :
    (pySplit sep l).headD [] = l.takeWhile (fun c => c != sep) := by
  induction l with
  | nil => simp [pySplit]
  | cons c cs ih =>
    rcases hr : pySplit sep cs with _ | ⟨h, t⟩
    · exact absurd hr (pySplit_ne_nil sep cs)
    · rw [hr] at ih
      by_cases hc : c = sep
      · subst hc
        simp [pySplit, hr, List.takeWhile_cons]
      · simp only [pySplit, hr, if_neg hc]
        simp only [List.headD_cons] at ih
        simp [List.takeWhile_cons, hc, ih]

theorem pySplit_length (sep : Char) (l : List Char) :
    (pySplit sep l).length = l.count sep + 1 := by
  induction l with
  | nil => simp [pySplit]
  | cons c cs ih =>
    rcases hr : pySplit sep cs with _ | ⟨h, t⟩
    · exact absurd hr (pySplit_ne_nil sep cs)
    · rw [hr] at ih
      have ih2 : t.length + 1 = cs.count sep + 1 := by simpa using ih
      by_cases hc : c = sep
      · simp only [pySplit, hr, if_pos hc, List.length_cons]
        simp [List.count_cons, hc]
        omega
      · simp only [pySplit, hr, if_neg hc, List.length_cons]
        simp [List.count_cons, hc]
        omega

theorem takeWhile_append_last {α : Type} (p : α → Bool) (l : List α) (a : α) :
    (l ++ [a]).takeWhile p =
      if l.all p then l ++ (if p a then [a] else []) else l.takeWhile p := by
  induction l with
  | nil =>
    simp only [List.nil_append, List.all_nil, if_true]
    split <;> simp [List.takeWhile_cons, *]
  | cons x xs ih =>
    by_cases hx : p x <;> simp [List.takeWhile_cons, hx, List.all_cons, ih] <;>
      split <;> simp [*]

theorem takeWhile_of_all {α : Type} (p : α → Bool) (l : List α) (h : l.all p) :
    l.takeWhile p = l :=
  List.takeWhile_eq_self_iff.mpr (by simpa [List.all_eq_true] using h)

theorem getLastD_irrel {α : Type} (l : List α) (d1 d2 : α) (h : l ≠ []) :
    l.getLastD d1 = l.getLastD d2 := by
  simp only [List.getLastD_eq_getLast?]
  obtain ⟨x, hx⟩ := Option.isSome_iff_exists.mp (List.getLast?_isSome.mpr h)
  simp [hx]

theorem pySplit_getLastD (sep : Char) (l : List Char) :
    (pySplit sep l).getLastD [] =
      (l.reverse.takeWhile (fun c => c != sep)).reverse := by
  induction l with
  | nil => simp [pySplit]
  | cons c cs ih =>
    rcases hr : pySplit sep cs with _ | ⟨h, t⟩
    · exact absurd hr (pySplit_ne_nil sep cs)
    · rw [hr] at ih
      by_cases hc : c = sep
      · subst hc
        simp only [pySplit, hr, if_true]
        rw [List.getLastD_cons, ih, List.reverse_cons, takeWhile_append_last]
        by_cases hall : cs.reverse.all (fun x => x != c)
        · rw [if_pos hall]
          simp [takeWhile_of_all _ _ hall]
        · rw [if_neg hall]
      · simp only [pySplit, hr, if_neg hc, List.reverse_cons]
        rw [takeWhile_append_last]
        have hcp : (fun x => x != sep) c = true := by simpa using hc
        by_cases hall : cs.reverse.all (fun x => x != sep)
        · -- no separator occurs in cs, so the recursive split is one segment
          have hcount : cs.count sep = 0 := by
            rw [List.count_eq_zero]
            intro hmem
            have := List.all_eq_true.mp hall sep (by simpa using hmem)
            simp at this
          have hlen : (pySplit sep cs).length = 1 := by
            rw [pySplit_length, hcount]
          rw [hr] at hlen
          simp only [List.length_cons] at hlen
          have ht : t = [] := List.length_eq_zero.mp (by omega)
          subst ht
          rw [if_pos hall, if_pos hcp]
          have hh : h = cs := by
            rw [takeWhile_of_all _ _ hall] at ih
            simpa using ih
          simp [hh]
        · -- a separator occurs in cs: the last segment of cs stays last
          have hmem : sep ∈ cs := by
            by_contra hn
            apply hall
            rw [List.all_eq_true]
            intro x hx
            have hxcs : x ∈ cs := by simpa using hx
            simp only [bne_iff_ne, ne_eq]
            intro hxe
            exact hn (hxe ▸ hxcs)
          have ht : t ≠ [] := by
            intro h0
            rw [h0] at hr
            have hl := pySplit_length sep cs
            rw [hr] at hl
            have := List.count_pos_iff.mpr hmem
            simp at hl
            omega
          rw [if_neg hall]
          rw [List.getLastD_cons] at ih ⊢
          rw [getLastD_irrel t (c :: h) h ht, ih]

theorem deriveFilename_eq_spec (u : String) : deriveFilename u = specFilename u := by
  unfold deriveFilename specFilename
  rw [pySplit_getLastD, pySplit_headD]

theorem urlencode_queryParams (morphs : List String) (pose : String) :
    urlencode (queryParams morphs pose) = specQuery morphs pose := by
  have hmt : (quotePlus "morphTargets" ++ "=" : String) = "morphTargets=" := by decide
  have hps : (quotePlus "pose" ++ "=" : String) = "pose=" := by decide
  by_cases hm : morphs = [] <;> by_cases hp : pose = ""
  · simp [queryParams, urlencode, specQuery, hm, hp]
  · simp only [queryParams, specQuery, hm, hp, if_pos, if_true, if_neg, if_false,
      List.nil_append]
    show quotePlus "pose" ++ "=" ++ quotePlus pose = "pose=" ++ quotePlus pose
    rw [hps]
  · simp only [queryParams, specQuery, if_neg hm, if_pos hp, List.append_nil]
    show quotePlus "morphTargets" ++ "=" ++ quotePlus (String.intercalate "," morphs) =
      "morphTargets=" ++ quotePlus (String.intercalate "," morphs)
    rw [hmt]
  · simp only [queryParams, specQuery, if_neg hm, if_neg hp, List.cons_append,
      List.nil_append]
    show quotePlus "morphTargets" ++ "=" ++ quotePlus (String.intercalate "," morphs) ++
        "&" ++ (quotePlus "pose" ++ "=" ++ quotePlus pose) =
      "morphTargets=" ++ quotePlus (String.intercalate "," morphs) ++ "&" ++
        ("pose=" ++ quotePlus pose)
    rw [hmt, hps]

theorem prefixAux_length (l : List Nat) : ∀ a, (prefixAux a l).length = l.length := by
  induction l with
  | nil => intro a; simp [prefixAux]
  | cons n rest ih => intro a; simp [prefixAux, ih]

theorem mem_prefixAux_le (l : List Nat) : ∀ (a d : Nat), d ∈ prefixAux a l → d ≤ a + l.sum := by
  induction l with
  | nil => simp [prefixAux]
  | cons n rest ih =>
    intro a d hd
    simp only [prefixAux, List.mem_cons] at hd
    rcases hd with h | h
    · subst h
      simp only [List.sum_cons]
      omega
    · have := ih (a + n) d h
      simp only [List.sum_cons]
      omega

theorem prefixAux_chain (l : List Nat) :
    ∀ a, List.Chain' (· ≤ ·) (prefixAux a l) ∧ ∀ x ∈ prefixAux a l, a ≤ x := by
  induction l with
  | nil => intro a; simp [prefixAux]
  | cons n rest ih =>
    intro a
    constructor
    · rw [prefixAux, List.chain'_cons']
      refine ⟨?_, (ih (a + n)).1⟩
      intro h hh
      exact (ih (a + n)).2 h (List.mem_of_mem_head? hh)
    · intro x hx
      simp only [prefixAux, List.mem_cons] at hx
      rcases hx with h | h
      · omega
      · have := (ih (a + n)).2 x h
        omega

theorem prefixAux_getLast (l : List Nat) :
    ∀ a, l ≠ [] → (prefixAux a l).getLast? = some (a + l.sum) := by
  induction l with
  | nil => simp
  | cons n rest ih =>
    intro a _
    by_cases hr : rest = []
    · subst hr
      simp [prefixAux]
    · rw [prefixAux]
      rcases hp : prefixAux (a + n) rest with _ | ⟨y, ys⟩
      · have := congrArg List.length hp
        simp [prefixAux_length] at this
        exact absurd this hr
      · have ih2 := ih (a + n) hr
        rw [hp] at ih2
        rw [List.getLast?_cons_cons, ih2]
        simp only [Option.some.injEq, List.sum_cons]
        omega

theorem clampProgress_bounds (v : Int) :
    0 ≤ clampProgress v ∧ clampProgress v ≤ 100 :=
  ⟨le_max_left 0 _, max_le (by norm_num) (min_le_left _ _)⟩

theorem log2fuel_bounds :
    ∀ (fuel n : Nat), n ≠ 0 → n ≤ fuel →
      2 ^ log2fuel fuel n ≤ n ∧ n < 2 ^ (log2fuel fuel n + 1) := by
  intro fuel
  induction fuel with
  | zero =>
    intro n h0 hn
    omega
  | succ f ih =>
    intro n h0 hn
    rw [log2fuel]
    by_cases h2 : 2 ≤ n
    · rw [if_pos h2]
      obtain ⟨l, u⟩ := ih (n / 2) (by omega) (by omega)
      constructor
      · calc 2 ^ (log2fuel f (n / 2) + 1) = 2 * 2 ^ (log2fuel f (n / 2)) := by ring
          _ ≤ 2 * (n / 2) := by omega
          _ ≤ n := by omega
      · calc n < 2 * (n / 2) + 2 := by omega
          _ ≤ 2 * 2 ^ (log2fuel f (n / 2) + 1) := by omega
          _ = 2 ^ (log2fuel f (n / 2) + 1 + 1) := by ring
    · rw [if_neg h2]
      simp
      omega

theorem myLog2_self_le {n : Nat} (h : n ≠ 0) : 2 ^ myLog2 n ≤ n :=
  (log2fuel_bounds n n h le_rfl).1

theorem myLog2_lt_self {n : Nat} (h : n ≠ 0) : n < 2 ^ (myLog2 n + 1) :=
  (log2fuel_bounds n n h le_rfl).2

theorem ne2_bounds (P Q : Nat) (hQ : 0 < Q) :
    2 * P ≤ 2 * ne2 P Q * Q + Q ∧ 2 * ne2 P Q * Q ≤ 2 * P + Q := by
  unfold ne2
  have key := Nat.div_add_mod P Q
  have hrlt : P % Q < Q := Nat.mod_lt P hQ
  generalize P / Q = x at *
  generalize P % Q = r at *
  split_ifs with h1 h2 h3 <;> constructor <;> linarith

theorem ne2_tie_high (P Q : Nat) (hQ : 0 < Q) (h : 2 * ne2 P Q * Q = 2 * P + Q) :
    ne2 P Q % 2 = 0 := by
  unfold ne2 at *
  have key := Nat.div_add_mod P Q
  have hrlt : P % Q < Q := Nat.mod_lt P hQ
  generalize P / Q = x at *
  generalize P % Q = r at *
  split_ifs at * with h1 h2 h3
  · exfalso; linarith
  · exfalso; linarith
  · exact h3
  · omega

theorem ne2_tie_low (P Q : Nat) (hQ : 0 < Q) (h : 2 * P = 2 * ne2 P Q * Q + Q) :
    ne2 P Q % 2 = 0 := by
  unfold ne2 at *
  have key := Nat.div_add_mod P Q
  have hrlt : P % Q < Q := Nat.mod_lt P hQ
  generalize P / Q = x at *
  generalize P % Q = r at *
  split_ifs at * with h1 h2 h3
  · exfalso; linarith
  · exfalso; linarith
  · exact h3
  · omega

theorem ne2_mono (P1 Q1 P2 Q2 : Nat) (hQ1 : 0 < Q1) (hQ2 : 0 < Q2)
    (h : P1 * Q2 ≤ P2 * Q1) : ne2 P1 Q1 ≤ ne2 P2 Q2 := by
  by_contra hlt
  push_neg at hlt
  obtain ⟨b1l, b1u⟩ := ne2_bounds P1 Q1 hQ1
  obtain ⟨b2l, b2u⟩ := ne2_bounds P2 Q2 hQ2
  set n1 := ne2 P1 Q1 with hn1
  set n2 := ne2 P2 Q2 with hn2
  have hsucc : n2 + 1 ≤ n1 := hlt
  have c1 : 2 * n1 * Q1 * Q2 ≤ (2 * P1 + Q1) * Q2 := Nat.mul_le_mul_right Q2 b1u
  have cc : 2 * n1 * Q1 * Q2 = 2 * n1 * Q2 * Q1 := by ring
  have c2 : (2 * P1 + Q1) * Q2 ≤ (2 * P2 + Q2) * Q1 := by linarith
  have step2 : 2 * n1 * Q2 ≤ 2 * P2 + Q2 := by
    have c3 : 2 * n1 * Q2 * Q1 ≤ (2 * P2 + Q2) * Q1 := by linarith
    have c4 : Q1 * (2 * n1 * Q2) ≤ Q1 * (2 * P2 + Q2) := by linarith
    exact Nat.le_of_mul_le_mul_left c4 hQ1
  have d1 : (n2 + 1) * Q2 ≤ n1 * Q2 := Nat.mul_le_mul_right Q2 hsucc
  have lower : 2 * P2 + Q2 ≤ 2 * n1 * Q2 := by linarith
  have e_eq : 2 * n1 * Q2 = 2 * P2 + Q2 := le_antisymm step2 lower
  have e2 : 2 * P2 = 2 * n2 * Q2 + Q2 := by linarith
  have e_n : n1 = n2 + 1 := by
    have f2 : Q2 * n1 ≤ Q2 * (n2 + 1) := by linarith
    have := Nat.le_of_mul_le_mul_left f2 hQ2
    omega
  have e1 : 2 * n1 * Q1 = 2 * P1 + Q1 := by
    have e_eqQ1 : 2 * n1 * Q2 * Q1 = (2 * P2 + Q2) * Q1 := by rw [e_eq]
    have g2 : (2 * P1 + Q1) * Q2 ≤ 2 * n1 * Q1 * Q2 := by linarith
    exact Nat.eq_of_mul_eq_mul_right hQ2 (le_antisymm c1 g2)
  have hev1 : n1 % 2 = 0 := ne2_tie_high P1 Q1 hQ1 e1
  have hev2 : n2 % 2 = 0 := ne2_tie_low P2 Q2 hQ2 e2
  omega

theorem ne2_exact (a Q : Nat) (hQ : 0 < Q) : ne2 (Q * a) Q = a := by
  unfold ne2
  rw [Nat.mul_div_cancel_left a hQ, Nat.mul_mod_right]
  simp [hQ]

theorem two_zpow_pos (j : Int) : (0 : ℚ) < 2 ^ j :=
  zpow_pos (by norm_num) j

theorem two_zpow_mul (a b : Int) : (2 : ℚ) ^ a * 2 ^ b = 2 ^ (a + b) :=
  (zpow_add₀ (by norm_num) a b).symm

theorem two_pow_toNat {e : Int} (h : 0 ≤ e) : (2 : ℚ) ^ e.toNat = (2 : ℚ) ^ e := by
  rw [← zpow_natCast (2 : ℚ) e.toNat, Int.toNat_of_nonneg h]

theorem two_pow_toNat_neg {e : Int} (h : ¬0 ≤ e) :
    (2 : ℚ) ^ (-e).toNat = (2 : ℚ) ^ (-e) := by
  rw [← zpow_natCast (2 : ℚ) (-e).toNat, Int.toNat_of_nonneg (by omega)]

theorem scaled_snd_pos (P Q : Nat) (hQ : 0 < Q) (e : Int) : 0 < (scaled P Q e).2 := by
  unfold scaled
  split_ifs <;> simp <;> positivity

theorem scaled_val (P Q : Nat) (hQ : 0 < Q) (e : Int) :
    ((scaled P Q e).1 : ℚ) / ((scaled P Q e).2 : ℚ) = (P : ℚ) / Q / (2 : ℚ) ^ e := by
  have hQq : (0 : ℚ) < Q := by exact_mod_cast hQ
  have h2e := two_zpow_pos e
  unfold scaled
  split_ifs with h
  · show (P : ℚ) / ((Q * 2 ^ e.toNat : Nat) : ℚ) = (P : ℚ) / Q / (2 : ℚ) ^ e
    push_cast
    rw [two_pow_toNat h, div_div]
  · show ((P * 2 ^ (-e).toNat : Nat) : ℚ) / (Q : ℚ) = (P : ℚ) / Q / (2 : ℚ) ^ e
    push_cast
    rw [two_pow_toNat_neg h, div_div, div_eq_div_iff (by positivity) (by positivity)]
    rw [zpow_neg]
    field_simp
    ring

theorem geTwoPow0_iff (P Q : Nat) (hQ : 0 < Q) (j : Int) :
    geTwoPow0 P Q j = true ↔ (2 : ℚ) ^ j ≤ (P : ℚ) / Q := by
  have hQq : (0 : ℚ) < Q := by exact_mod_cast hQ
  unfold geTwoPow0
  split_ifs with h
  · simp only [decide_eq_true_eq]
    rw [le_div_iff₀ hQq]
    constructor
    · intro hle
      have : ((Q * 2 ^ j.toNat : Nat) : ℚ) ≤ (P : ℚ) := by exact_mod_cast hle
      push_cast at this
      rw [two_pow_toNat h] at this
      linarith
    · intro hle
      have : ((Q * 2 ^ j.toNat : Nat) : ℚ) ≤ (P : ℚ) := by
        push_cast
        rw [two_pow_toNat h]
        linarith
      exact_mod_cast this
  · simp only [decide_eq_true_eq]
    have hj : (2 : ℚ) ^ j = ((2 : ℚ) ^ (-j).toNat)⁻¹ := by
      rw [two_pow_toNat_neg h, zpow_neg, inv_inv]
    rw [hj, inv_eq_one_div, div_le_div_iff (by positivity) hQq, one_mul]
    constructor
    · intro hle
      have : ((Q : Nat) : ℚ) ≤ ((P * 2 ^ (-j).toNat : Nat) : ℚ) := by exact_mod_cast hle
      push_cast at this
      linarith
    · intro hle
      have : ((Q : Nat) : ℚ) ≤ ((P * 2 ^ (-j).toNat : Nat) : ℚ) := by
        push_cast
        linarith
      exact_mod_cast this

theorem findK0_bracket (P Q : Nat) (hP : 0 < P) (hQ : 0 < Q) :
    (2 : ℚ) ^ findK0 P Q ≤ (P : ℚ) / Q ∧ (P : ℚ) / Q < (2 : ℚ) ^ (findK0 P Q + 1) := by
  have hPq : (0 : ℚ) < P := by exact_mod_cast hP
  have hQq : (0 : ℚ) < Q := by exact_mod_cast hQ
  have ha1 : ((2 : ℚ) ^ (myLog2 P : ℕ)) ≤ (P : ℚ) := by
    exact_mod_cast myLog2_self_le (by omega : P ≠ 0)
  have ha2 : (P : ℚ) < 2 ^ (myLog2 P + 1 : ℕ) := by
    exact_mod_cast myLog2_lt_self (by omega : P ≠ 0)
  have hb1 : ((2 : ℚ) ^ (myLog2 Q : ℕ)) ≤ (Q : ℚ) := by
    exact_mod_cast myLog2_self_le (by omega : Q ≠ 0)
  have hb2 : (Q : ℚ) < 2 ^ (myLog2 Q + 1 : ℕ) := by
    exact_mod_cast myLog2_lt_self (by omega : Q ≠ 0)
  have hupper : (P : ℚ) / Q < 2 ^ (((myLog2 P : Int) - (myLog2 Q : Int)) + 1) := by
    have h1 : (P : ℚ) / Q < (2 ^ (myLog2 P + 1 : ℕ) : ℚ) / (2 ^ (myLog2 Q : ℕ) : ℚ) :=
      div_lt_div ha2 hb1 (by positivity) (by positivity)
    have h2 : ((2 : ℚ) ^ (myLog2 P + 1 : ℕ)) / (2 ^ (myLog2 Q : ℕ)) =
        2 ^ (((myLog2 P : Int) - (myLog2 Q : Int)) + 1) := by
      rw [← zpow_natCast (2 : ℚ) (myLog2 P + 1), ← zpow_natCast (2 : ℚ) (myLog2 Q),
        ← zpow_sub₀ (by norm_num : (2 : ℚ) ≠ 0)]
      congr 1
      push_cast
      ring
    rw [h2] at h1
    exact h1
  have hlower : (2 : ℚ) ^ (((myLog2 P : Int) - (myLog2 Q : Int)) - 1) < (P : ℚ) / Q := by
    have h1 : ((2 : ℚ) ^ (myLog2 P : ℕ)) / (2 ^ (myLog2 Q + 1 : ℕ)) ≤
        (P : ℚ) / (2 ^ (myLog2 Q + 1 : ℕ) : ℚ) := by
      apply div_le_div_of_nonneg_right ha1 ?_ |>.trans le_rfl
      positivity
    have h2 : (P : ℚ) / (2 ^ (myLog2 Q + 1 : ℕ) : ℚ) < (P : ℚ) / Q :=
      div_lt_div_of_pos_left hPq hQq hb2
    have h3 : ((2 : ℚ) ^ (myLog2 P : ℕ)) / (2 ^ (myLog2 Q + 1 : ℕ)) =
        2 ^ (((myLog2 P : Int) - (myLog2 Q : Int)) - 1) := by
      rw [← zpow_natCast (2 : ℚ) (myLog2 P), ← zpow_natCast (2 : ℚ) (myLog2 Q + 1),
        ← zpow_sub₀ (by norm_num : (2 : ℚ) ≠ 0)]
      congr 1
      push_cast
      ring
    calc (2 : ℚ) ^ (((myLog2 P : Int) - (myLog2 Q : Int)) - 1)
        = (2 : ℚ) ^ (myLog2 P : ℕ) / (2 ^ (myLog2 Q + 1 : ℕ)) := h3.symm
      _ ≤ (P : ℚ) / (2 ^ (myLog2 Q + 1 : ℕ) : ℚ) := h1
      _ < (P : ℚ) / Q := h2
  unfold findK0
  by_cases htest : geTwoPow0 P Q ((myLog2 P : Int) - (myLog2 Q : Int)) = true
  · rw [if_pos htest]
    exact ⟨(geTwoPow0_iff P Q hQ _).mp htest, hupper⟩
  · rw [if_neg htest]
    constructor
    · have := hlower
      exact le_of_lt this
    · have hnot : ¬((2 : ℚ) ^ ((myLog2 P : Int) - (myLog2 Q : Int)) ≤ (P : ℚ) / Q) :=
        fun hc => htest ((geTwoPow0_iff P Q hQ _).mpr hc)
      push_neg at hnot
      have : ((myLog2 P : Int) - (myLog2 Q : Int)) - 1 + 1 =
          (myLog2 P : Int) - (myLog2 Q : Int) := by ring
      rw [this]
      exact hnot

theorem ne2_le_of_lt (P Q B : Nat) (hQ : 0 < Q) (h : P < B * Q) : ne2 P Q ≤ B := by
  obtain ⟨hl, hu⟩ := ne2_bounds P Q hQ
  have h1 : 2 * ne2 P Q * Q < (2 * B + 1) * Q := by nlinarith
  have h2 : Q * (2 * ne2 P Q) < Q * (2 * B + 1) := by nlinarith
  have := Nat.lt_of_mul_lt_mul_left h2
  omega

theorem ne2_ge_of_le (P Q B : Nat) (hQ : 0 < Q) (h : B * Q ≤ P) : B ≤ ne2 P Q := by
  obtain ⟨hl, hu⟩ := ne2_bounds P Q hQ
  have h1 : (2 * B) * Q ≤ (2 * ne2 P Q + 1) * Q := by nlinarith
  have h2 : Q * (2 * B) ≤ Q * (2 * ne2 P Q + 1) := by nlinarith
  have h3 := Nat.le_of_mul_le_mul_left h2 hQ
  omega

theorem roundF0_zero (Q : Nat) : roundF0 0 Q = PyFloat.finite 0 0 := by
  simp [roundF0]

theorem roundF0_finite_inv (P Q : Nat) (hP : P ≠ 0) {m : Nat} {e : Int}
    (h : roundF0 P Q = PyFloat.finite m e) :
    e = max (findK0 P Q - 52) (-1074) ∧
    m = ne2 (scaled P Q e).1 (scaled P Q e).2 ∧
    ovf m e = false := by
  unfold roundF0 at h
  rw [if_neg hP] at h
  by_cases hov : ovf (ne2 (scaled P Q (max (findK0 P Q - 52) (-1074))).1
      (scaled P Q (max (findK0 P Q - 52) (-1074))).2) (max (findK0 P Q - 52) (-1074)) = true
  · rw [if_pos hov] at h
    exact absurd h (by simp)
  · rw [if_neg hov] at h
    injection h with hm he
    subst he
    refine ⟨rfl, hm.symm, ?_⟩
    rw [hm] at hov
    simpa using hov

theorem roundF0_inf_inv (P Q : Nat) (hP : P ≠ 0)
    (h : roundF0 P Q = PyFloat.inf) :
    ovf (ne2 (scaled P Q (max (findK0 P Q - 52) (-1074))).1
      (scaled P Q (max (findK0 P Q - 52) (-1074))).2) (max (findK0 P Q - 52) (-1074)) = true := by
  unfold roundF0 at h
  rw [if_neg hP] at h
  by_cases hov : ovf (ne2 (scaled P Q (max (findK0 P Q - 52) (-1074))).1
      (scaled P Q (max (findK0 P Q - 52) (-1074))).2) (max (findK0 P Q - 52) (-1074)) = true
  · exact hov
  · rw [if_neg hov] at h
    exact absurd h (by simp)

theorem ovf_iff (m : Nat) (e : Int) :
    ovf m e = true ↔ (2 : ℚ) ^ (1024 : Int) ≤ qVal m e := by
  have hz : (2 : ℚ) ^ (1024 : Int) = (2 : ℚ) ^ (1024 : ℕ) := by
    rw [← zpow_natCast (2 : ℚ) 1024]
    norm_num
  unfold ovf qVal
  rw [hz]
  split_ifs with h
  · simp only [decide_eq_true_eq]
    constructor
    · intro hle
      have h2 : ((2 ^ 1024 : Nat) : ℚ) ≤ ((m * 2 ^ e.toNat : Nat) : ℚ) := by exact_mod_cast hle
      push_cast at h2
      rw [two_pow_toNat h] at h2
      exact h2
    · intro hle
      have h2 : ((2 ^ 1024 : Nat) : ℚ) ≤ ((m * 2 ^ e.toNat : Nat) : ℚ) := by
        push_cast
        rw [two_pow_toNat h]
        exact hle
      exact_mod_cast h2
  · simp only [decide_eq_true_eq]
    have key : (2 : ℚ) ^ e * (2 : ℚ) ^ (-e).toNat = 1 := by
      rw [two_pow_toNat_neg h, two_zpow_mul]
      simp
    constructor
    · intro hle
      have h2 : ((2 ^ 1024 * 2 ^ (-e).toNat : Nat) : ℚ) ≤ (m : ℚ) := by exact_mod_cast hle
      push_cast at h2
      calc (2 : ℚ) ^ (1024 : ℕ)
          = (2 : ℚ) ^ (1024 : ℕ) * ((2 : ℚ) ^ (-e).toNat * (2 : ℚ) ^ e) := by
            rw [mul_comm ((2 : ℚ) ^ (-e).toNat) _, key, mul_one]
        _ = ((2 : ℚ) ^ (1024 : ℕ) * (2 : ℚ) ^ (-e).toNat) * (2 : ℚ) ^ e := by ring
        _ ≤ (m : ℚ) * 2 ^ e := by
            apply mul_le_mul_of_nonneg_right h2 (le_of_lt (two_zpow_pos e))
    · intro hle
      have h2 : ((2 ^ 1024 * 2 ^ (-e).toNat : Nat) : ℚ) ≤ (m : ℚ) := by
        push_cast
        calc (2 : ℚ) ^ (1024 : ℕ) * (2 : ℚ) ^ (-e).toNat
            ≤ ((m : ℚ) * 2 ^ e) * (2 : ℚ) ^ (-e).toNat := by
              apply mul_le_mul_of_nonneg_right hle (by positivity)
          _ = (m : ℚ) * ((2 : ℚ) ^ e * (2 : ℚ) ^ (-e).toNat) := by ring
          _ = (m : ℚ) := by rw [key, mul_one]
      exact_mod_cast h2

theorem emax_ge_sub (P Q : Nat) : findK0 P Q - 52 ≤ max (findK0 P Q - 52) (-1074) :=
  le_max_left _ _

theorem scaled_u_lt (P Q : Nat) (hP : 0 < P) (hQ : 0 < Q) :
    (scaled P Q (max (findK0 P Q - 52) (-1074))).1 <
      2 ^ 53 * (scaled P Q (max (findK0 P Q - 52) (-1074))).2 := by
  set e : Int := max (findK0 P Q - 52) (-1074) with he
  set k : Int := findK0 P Q with hk
  have hs2 : 0 < (scaled P Q e).2 := scaled_snd_pos P Q hQ e
  have hs2q : (0 : ℚ) < ((scaled P Q e).2 : ℚ) := by exact_mod_cast hs2
  have hq : ((scaled P Q e).1 : ℚ) < 2 ^ (53 : ℕ) * ((scaled P Q e).2 : ℚ) := by
    rw [← div_lt_iff₀ hs2q, scaled_val P Q hQ e]
    rw [div_lt_iff₀ (two_zpow_pos e)]
    have hbr := (findK0_bracket P Q hP hQ).2
    have hle : (2 : ℚ) ^ (k + 1) ≤ (2 : ℚ) ^ (53 : ℕ) * 2 ^ e := by
      have h53 : (2 : ℚ) ^ (53 : ℕ) = (2 : ℚ) ^ (53 : Int) := by
        rw [← zpow_natCast (2 : ℚ) 53]
        norm_num
      rw [h53, two_zpow_mul]
      apply zpow_le_zpow_right₀ (by norm_num)
      have : k - 52 ≤ e := emax_ge_sub P Q
      omega
    calc (P : ℚ) / Q < 2 ^ (k + 1) := hbr
      _ ≤ (2 : ℚ) ^ (53 : ℕ) * 2 ^ e := hle
  have hq2 : ((scaled P Q e).1 : ℚ) < ((2 ^ 53 * (scaled P Q e).2 : Nat) : ℚ) := by
    push_cast
    exact hq
  exact_mod_cast hq2

theorem scaled_u_ge (P Q : Nat) (hP : 0 < P) (hQ : 0 < Q)
    (hcl : (-1074 : Int) ≤ findK0 P Q - 52) :
    2 ^ 52 * (scaled P Q (max (findK0 P Q - 52) (-1074))).2 ≤
      (scaled P Q (max (findK0 P Q - 52) (-1074))).1 := by
  have he : max (findK0 P Q - 52) (-1074) = findK0 P Q - 52 := max_eq_left hcl
  set e : Int := max (findK0 P Q - 52) (-1074) with hedef
  set k : Int := findK0 P Q with hk
  have hs2 : 0 < (scaled P Q e).2 := scaled_snd_pos P Q hQ e
  have hs2q : (0 : ℚ) < ((scaled P Q e).2 : ℚ) := by exact_mod_cast hs2
  have hbr := (findK0_bracket P Q hP hQ).1
  have h52 : (2 : ℚ) ^ (52 : ℕ) = (2 : ℚ) ^ (52 : Int) := by
    rw [← zpow_natCast (2 : ℚ) 52]
    norm_num
  have hdiv : (2 : ℚ) ^ (52 : ℕ) ≤ ((scaled P Q e).1 : ℚ) / ((scaled P Q e).2 : ℚ) := by
    rw [scaled_val P Q hQ e, le_div_iff₀ (two_zpow_pos e)]
    calc (2 : ℚ) ^ (52 : ℕ) * 2 ^ e = 2 ^ ((52 : Int) + e) := by rw [h52, two_zpow_mul]
      _ = (2 : ℚ) ^ k := by
          congr 1
          omega
      _ ≤ (P : ℚ) / Q := hbr
  have hprod := (le_div_iff₀ hs2q).mp hdiv
  have hnum : (2 : ℚ) ^ (52 : ℕ) = 4503599627370496 := by norm_num
  have hfin : ((2 ^ 52 * (scaled P Q e).2 : Nat) : ℚ) ≤ ((scaled P Q e).1 : ℚ) := by
    push_cast
    rw [hnum] at hprod
    linarith
  exact_mod_cast hfin

theorem roundF0_val_bounds (P Q : Nat) (hP : 0 < P) (hQ : 0 < Q) {m : Nat} {e : Int}
    (h : roundF0 P Q = PyFloat.finite m e) :
    (P : ℚ) / Q - 2 ^ e / 2 ≤ qVal m e ∧ qVal m e ≤ (P : ℚ) / Q + 2 ^ e / 2 := by
  obtain ⟨he, hm, _⟩ := roundF0_finite_inv P Q (by omega) h
  have hs2 : 0 < (scaled P Q e).2 := scaled_snd_pos P Q hQ e
  have hs2q : (0 : ℚ) < ((scaled P Q e).2 : ℚ) := by exact_mod_cast hs2
  obtain ⟨hb1, hb2⟩ := ne2_bounds (scaled P Q e).1 (scaled P Q e).2 hs2
  rw [← hm] at hb1 hb2
  have hb1q : 2 * ((scaled P Q e).1 : ℚ) ≤ 2 * m * ((scaled P Q e).2 : ℚ) +
      ((scaled P Q e).2 : ℚ) := by exact_mod_cast hb1
  have hb2q : 2 * (m : ℚ) * ((scaled P Q e).2 : ℚ) ≤ 2 * ((scaled P Q e).1 : ℚ) +
      ((scaled P Q e).2 : ℚ) := by exact_mod_cast hb2
  have hm_ge : ((scaled P Q e).1 : ℚ) / ((scaled P Q e).2 : ℚ) - 1 / 2 ≤ (m : ℚ) := by
    rw [div_sub_div _ _ (ne_of_gt hs2q) (by norm_num), div_le_iff₀ (by positivity)]
    ring_nf
    ring_nf at hb1q
    linarith
  have hm_le : (m : ℚ) ≤ ((scaled P Q e).1 : ℚ) / ((scaled P Q e).2 : ℚ) + 1 / 2 := by
    rw [div_add_div _ _ (ne_of_gt hs2q) (by norm_num), le_div_iff₀ (by positivity)]
    ring_nf
    ring_nf at hb2q
    linarith
  rw [scaled_val P Q hQ e] at hm_ge hm_le
  have h2e := two_zpow_pos e
  constructor
  · have := mul_le_mul_of_nonneg_right hm_ge (le_of_lt h2e)
    calc (P : ℚ) / Q - 2 ^ e / 2
        = ((P : ℚ) / Q / 2 ^ e - 1 / 2) * 2 ^ e := by
          field_simp
          ring
      _ ≤ (m : ℚ) * 2 ^ e := this
  · have := mul_le_mul_of_nonneg_right hm_le (le_of_lt h2e)
    calc qVal m e = (m : ℚ) * 2 ^ e := rfl
      _ ≤ ((P : ℚ) / Q / 2 ^ e + 1 / 2) * 2 ^ e := this
      _ = (P : ℚ) / Q + 2 ^ e / 2 := by
          field_simp
          ring

theorem qVal_mono_same_e {m1 m2 : Nat} (e : Int) (h : m1 ≤ m2) : qVal m1 e ≤ qVal m2 e := by
  unfold qVal
  have hq : (m1 : ℚ) ≤ m2 := by exact_mod_cast h
  exact mul_le_mul_of_nonneg_right hq (le_of_lt (two_zpow_pos e))

theorem ovf_mono_m {m1 m2 : Nat} (e : Int) (h : m1 ≤ m2) (hov : ovf m1 e = true) :
    ovf m2 e = true := by
  rw [ovf_iff] at hov ⊢
  exact le_trans hov (qVal_mono_same_e e h)

theorem findK0_mono (P1 Q1 P2 Q2 : Nat) (hP1 : 0 < P1) (hQ1 : 0 < Q1)
    (hP2 : 0 < P2) (hQ2 : 0 < Q2)
    (hle : (P1 : ℚ) / Q1 ≤ (P2 : ℚ) / Q2) : findK0 P1 Q1 ≤ findK0 P2 Q2 := by
  by_contra hgt
  push_neg at hgt
  have b1 := (findK0_bracket P1 Q1 hP1 hQ1).1
  have b2 := (findK0_bracket P2 Q2 hP2 hQ2).2
  have hz : (2 : ℚ) ^ (findK0 P2 Q2 + 1) ≤ 2 ^ findK0 P1 Q1 :=
    zpow_le_zpow_right₀ (by norm_num) (by omega)
  linarith

theorem qVal_le_pow_of_m_le {m : Nat} {e : Int} (h : m ≤ 2 ^ 53) :
    qVal m e ≤ (2 : ℚ) ^ (e + 53) := by
  have hq : (m : ℚ) ≤ (2 : ℚ) ^ (53 : ℕ) := by exact_mod_cast h
  have h53 : (2 : ℚ) ^ (53 : ℕ) = (2 : ℚ) ^ (53 : Int) := by
    rw [← zpow_natCast (2 : ℚ) 53]
    norm_num
  calc qVal m e ≤ (2 : ℚ) ^ (53 : ℕ) * 2 ^ e :=
        mul_le_mul_of_nonneg_right hq (le_of_lt (two_zpow_pos e))
    _ = (2 : ℚ) ^ (e + 53) := by
        rw [h53, two_zpow_mul]
        congr 1
        ring

theorem pow_le_qVal_of_m_ge {m : Nat} {e : Int} (h : 2 ^ 52 ≤ m) :
    (2 : ℚ) ^ (e + 52) ≤ qVal m e := by
  have hq : (2 : ℚ) ^ (52 : ℕ) ≤ (m : ℚ) := by exact_mod_cast h
  have h52 : (2 : ℚ) ^ (52 : ℕ) = (2 : ℚ) ^ (52 : Int) := by
    rw [← zpow_natCast (2 : ℚ) 52]
    norm_num
  calc (2 : ℚ) ^ (e + 52) = (2 : ℚ) ^ (52 : ℕ) * 2 ^ e := by
        rw [h52, two_zpow_mul]
        congr 1
        ring
    _ ≤ (m : ℚ) * 2 ^ e := mul_le_mul_of_nonneg_right hq (le_of_lt (two_zpow_pos e))

theorem scaled_cross_mono (P1 Q1 P2 Q2 : Nat) (hQ1 : 0 < Q1) (hQ2 : 0 < Q2) (e : Int)
    (hle : (P1 : ℚ) / Q1 ≤ (P2 : ℚ) / Q2) :
    (scaled P1 Q1 e).1 * (scaled P2 Q2 e).2 ≤ (scaled P2 Q2 e).1 * (scaled P1 Q1 e).2 := by
  have hs1 : (0 : ℚ) < ((scaled P1 Q1 e).2 : ℚ) := by
    exact_mod_cast scaled_snd_pos P1 Q1 hQ1 e
  have hs2 : (0 : ℚ) < ((scaled P2 Q2 e).2 : ℚ) := by
    exact_mod_cast scaled_snd_pos P2 Q2 hQ2 e
  have hu : ((scaled P1 Q1 e).1 : ℚ) / ((scaled P1 Q1 e).2 : ℚ) ≤
      ((scaled P2 Q2 e).1 : ℚ) / ((scaled P2 Q2 e).2 : ℚ) := by
    rw [scaled_val P1 Q1 hQ1 e, scaled_val P2 Q2 hQ2 e]
    gcongr
  have hcross := (div_le_div_iff hs1 hs2).mp hu
  exact_mod_cast hcross

theorem roundF0_mono (P1 Q1 P2 Q2 : Nat) (hP1 : 0 < P1) (hQ1 : 0 < Q1)
    (hP2 : 0 < P2) (hQ2 : 0 < Q2)
    (hle : (P1 : ℚ) / Q1 ≤ (P2 : ℚ) / Q2) :
    pfLe (roundF0 P1 Q1) (roundF0 P2 Q2) := by
  have hk := findK0_mono P1 Q1 P2 Q2 hP1 hQ1 hP2 hQ2 hle
  have hee : max (findK0 P1 Q1 - 52) (-1074 : Int) ≤ max (findK0 P2 Q2 - 52) (-1074) :=
    max_le_max (by omega) le_rfl
  cases hr2 : roundF0 P2 Q2 with
  | inf =>
    cases hr1 : roundF0 P1 Q1 <;> simp [pfLe]
  | finite m2 e2 =>
    obtain ⟨he2, hm2, hov2⟩ := roundF0_finite_inv P2 Q2 (by omega) hr2
    have hm1le : ne2 (scaled P1 Q1 (max (findK0 P1 Q1 - 52) (-1074))).1
        (scaled P1 Q1 (max (findK0 P1 Q1 - 52) (-1074))).2 ≤ 2 ^ 53 :=
      ne2_le_of_lt _ _ _
        (scaled_snd_pos P1 Q1 hQ1 _) (scaled_u_lt P1 Q1 hP1 hQ1)
    cases hr1 : roundF0 P1 Q1 with
    | inf =>
      exfalso
      have hov1 := roundF0_inf_inv P1 Q1 (by omega) hr1
      by_cases heq : max (findK0 P1 Q1 - 52) (-1074 : Int) = max (findK0 P2 Q2 - 52) (-1074)
      · -- same scale: the rounded significand is monotone, so overflow transfers
        have hcross := scaled_cross_mono P1 Q1 P2 Q2 hQ1 hQ2
          (max (findK0 P2 Q2 - 52) (-1074)) hle
        have hmm : ne2 (scaled P1 Q1 (max (findK0 P2 Q2 - 52) (-1074))).1
            (scaled P1 Q1 (max (findK0 P2 Q2 - 52) (-1074))).2 ≤ m2 := by
          rw [hm2, he2]
          exact ne2_mono _ _ _ _
            (scaled_snd_pos P1 Q1 hQ1 _) (scaled_snd_pos P2 Q2 hQ2 _) hcross
        rw [heq] at hov1
        have := ovf_mono_m _ hmm hov1
        rw [← he2] at this
        rw [this] at hov2
        exact absurd hov2 (by simp)
      · -- strictly larger scale on the right: the right value is itself ≥ 2 ^ 1024
        have hlt : max (findK0 P1 Q1 - 52) (-1074 : Int) <
            max (findK0 P2 Q2 - 52) (-1074) := lt_of_le_of_ne hee heq
        have hq1 := (ovf_iff _ _).mp hov1
        have hq1b := qVal_le_pow_of_m_le (e := max (findK0 P1 Q1 - 52) (-1074)) hm1le
        have he1ge : (971 : Int) ≤ max (findK0 P1 Q1 - 52) (-1074) := by
          by_contra hc
          push_neg at hc
          have : (2 : ℚ) ^ (max (findK0 P1 Q1 - 52) (-1074 : Int) + 53) <
              2 ^ (1024 : Int) := (zpow_lt_zpow_iff_right₀ (by norm_num)).mpr (by omega)
          linarith
        have hcl2 : (-1074 : Int) ≤ findK0 P2 Q2 - 52 := by
          rcases max_cases (findK0 P2 Q2 - 52) (-1074 : Int) with ⟨h1, h2⟩ | ⟨h1, h2⟩
          · exact h2
          · omega
        have hm2ge : 2 ^ 52 ≤ m2 := by
          rw [hm2, he2]
          exact ne2_ge_of_le _ _ _
            (scaled_snd_pos P2 Q2 hQ2 _) (scaled_u_ge P2 Q2 hP2 hQ2 hcl2)
        have hq2 : (2 : ℚ) ^ (e2 + 52) ≤ qVal m2 e2 := pow_le_qVal_of_m_ge hm2ge
        have hbig : (2 : ℚ) ^ (1024 : Int) ≤ qVal m2 e2 := by
          have hstep : (2 : ℚ) ^ (1024 : Int) ≤ (2 : ℚ) ^ (e2 + 52) := by
            apply zpow_le_zpow_right₀ (by norm_num)
            rw [he2]
            omega
          linarith
        have := (ovf_iff m2 e2).mpr hbig
        rw [this] at hov2
        exact absurd hov2 (by simp)
    | finite m1 e1 =>
      obtain ⟨he1, hm1, hov1⟩ := roundF0_finite_inv P1 Q1 (by omega) hr1
      show qVal m1 e1 ≤ qVal m2 e2
      by_cases heq : e1 = e2
      · subst heq
        have hcross := scaled_cross_mono P1 Q1 P2 Q2 hQ1 hQ2 e1 hle
        have hmm : m1 ≤ m2 := by
          rw [hm1, hm2]
          exact ne2_mono _ _ _ _
            (scaled_snd_pos P1 Q1 hQ1 _) (scaled_snd_pos P2 Q2 hQ2 _) hcross
        exact qVal_mono_same_e e1 hmm
      · have hlt : e1 < e2 := by
          rw [he1, he2]
          rw [he1, he2] at heq
          exact lt_of_le_of_ne hee heq
        have hm1le' : m1 ≤ 2 ^ 53 := by
          rw [hm1, he1]
          exact hm1le
        have hcl2 : (-1074 : Int) ≤ findK0 P2 Q2 - 52 := by
          rcases max_cases (findK0 P2 Q2 - 52) (-1074 : Int) with ⟨h1, h2⟩ | ⟨h1, h2⟩
          · exact h2
          · exfalso
            have hge : (-1074 : Int) ≤ e1 := by
              rw [he1]
              exact le_max_right _ _
            rw [he2] at hlt
            omega
        have hm2ge : 2 ^ 52 ≤ m2 := by
          rw [hm2, he2]
          exact ne2_ge_of_le _ _ _
            (scaled_snd_pos P2 Q2 hQ2 _) (scaled_u_ge P2 Q2 hP2 hQ2 hcl2)
        calc qVal m1 e1 ≤ (2 : ℚ) ^ (e1 + 53) := qVal_le_pow_of_m_le hm1le'
          _ ≤ (2 : ℚ) ^ (e2 + 52) := zpow_le_zpow_right₀ (by norm_num) (by omega)
          _ ≤ qVal m2 e2 := pow_le_qVal_of_m_ge hm2ge

theorem qVal_nonneg (m : Nat) (e : Int) : 0 ≤ qVal m e := by
  unfold qVal
  positivity

theorem qVal_pos {m : Nat} (e : Int) (hm : 0 < m) : 0 < qVal m e := by
  unfold qVal
  have hq : (0 : ℚ) < m := by exact_mod_cast hm
  positivity

theorem clampProgress_eq_self {v : Int} (h0 : 0 ≤ v) (h1 : v ≤ 100) :
    clampProgress v = v := by
  unfold clampProgress
  omega

theorem mulArgs_snd_pos (m : Nat) (e : Int) : 0 < (mulArgs m e).2 := by
  unfold mulArgs
  split_ifs <;> simp <;> positivity

theorem mulArgs_fst_pos (m : Nat) (e : Int) (hm : 0 < m) : 0 < (mulArgs m e).1 := by
  unfold mulArgs
  split_ifs <;> simp <;> positivity

theorem mulArgs_val (m : Nat) (e : Int) :
    ((mulArgs m e).1 : ℚ) / ((mulArgs m e).2 : ℚ) = 100 * qVal m e := by
  unfold mulArgs qVal
  split_ifs with h
  · show ((m * 100 * 2 ^ e.toNat : Nat) : ℚ) / ((1 : Nat) : ℚ) = 100 * ((m : ℚ) * 2 ^ e)
    push_cast
    rw [two_pow_toNat h]
    ring
  · show ((m * 100 : Nat) : ℚ) / ((2 ^ (-e).toNat : Nat) : ℚ) = 100 * ((m : ℚ) * 2 ^ e)
    have hpos : (0 : ℚ) < ((2 : ℚ) ^ (-e).toNat) := by positivity
    push_cast
    rw [two_pow_toNat_neg h]
    rw [div_eq_iff (by positivity : ((2 : ℚ) ^ (-e : Int)) ≠ 0)]
    rw [mul_assoc, mul_assoc, two_zpow_mul]
    simp
    ring

theorem pyMul100_finite (m : Nat) (e : Int) :
    pyMul100 (PyFloat.finite m e) = roundF0 (mulArgs m e).1 (mulArgs m e).2 := rfl

theorem pyMul100_zero (e : Int) : pyMul100 (PyFloat.finite 0 e) = PyFloat.finite 0 0 := by
  rw [pyMul100_finite]
  have h0 : (mulArgs 0 e).1 = 0 := by
    unfold mulArgs
    split_ifs <;> simp
  rw [h0, roundF0_zero]

theorem roundF0_finite_of_le (P Q : Nat) (hP : 0 < P) (hQ : 0 < Q) (B : Int)
    (hB : B ≤ 900) (h : (P : ℚ) / Q ≤ (2 : ℚ) ^ B) :
    ∃ m e, roundF0 P Q = PyFloat.finite m e ∧ e ≤ max (B - 52) (-1074) := by
  have hk : findK0 P Q ≤ B := by
    have b1 := (findK0_bracket P Q hP hQ).1
    by_contra hc
    push_neg at hc
    have hz : (2 : ℚ) ^ B < 2 ^ findK0 P Q :=
      (zpow_lt_zpow_iff_right₀ (by norm_num)).mpr hc
    linarith
  have he : max (findK0 P Q - 52) (-1074 : Int) ≤ max (B - 52) (-1074) :=
    max_le_max (by omega) le_rfl
  cases hr : roundF0 P Q with
  | finite m e =>
    obtain ⟨he', _, _⟩ := roundF0_finite_inv P Q (by omega) hr
    refine ⟨m, e, rfl, ?_⟩
    rw [he']
    exact he
  | inf =>
    exfalso
    have hov := roundF0_inf_inv P Q (by omega) hr
    have hq := (ovf_iff _ _).mp hov
    have hmle : ne2 (scaled P Q (max (findK0 P Q - 52) (-1074))).1
        (scaled P Q (max (findK0 P Q - 52) (-1074))).2 ≤ 2 ^ 53 :=
      ne2_le_of_lt _ _ _ (scaled_snd_pos P Q hQ _) (scaled_u_lt P Q hP hQ)
    have hqb := qVal_le_pow_of_m_le (e := max (findK0 P Q - 52) (-1074)) hmle
    have h848 : max (B - 52) (-1074 : Int) ≤ 848 := max_le (by omega) (by omega)
    have hlt : (2 : ℚ) ^ (max (findK0 P Q - 52) (-1074 : Int) + 53) < 2 ^ (1024 : Int) :=
      (zpow_lt_zpow_iff_right₀ (by norm_num)).mpr (by omega)
    linarith

theorem stage1 (N d : Nat) (hN : 0 < N) (hd : 0 < d) (hdN : d ≤ N) :
    ∃ m e, roundF0 d N = PyFloat.finite m e ∧ qVal m e ≤ 2 ∧
      qVal m e ≤ (d : ℚ) / N + (2 : ℚ) ^ (-53 : Int) := by
  have hNq : (0 : ℚ) < N := by exact_mod_cast hN
  have hd1 : (d : ℚ) / N ≤ 1 := by
    rw [div_le_one hNq]
    exact_mod_cast hdN
  have hratio : (d : ℚ) / N ≤ (2 : ℚ) ^ (0 : Int) := by
    rw [zpow_zero]
    exact hd1
  obtain ⟨m, e, hr, he⟩ := roundF0_finite_of_le d N hd hN 0 (by norm_num) hratio
  have hb := (roundF0_val_bounds d N hd hN hr).2
  have hmx : max ((0 : Int) - 52) (-1074) = -52 := by decide
  rw [hmx] at he
  have h2e : (2 : ℚ) ^ e ≤ (2 : ℚ) ^ (-52 : Int) :=
    zpow_le_zpow_right₀ (by norm_num) he
  have h5253 : (2 : ℚ) ^ (-52 : Int) = 2 * (2 : ℚ) ^ (-53 : Int) := by
    rw [show (-52 : Int) = 1 + -53 by norm_num, ← two_zpow_mul, zpow_one]
  have h53le : (2 : ℚ) ^ (-53 : Int) ≤ 1 := by
    rw [show (1 : ℚ) = (2 : ℚ) ^ (0 : Int) from (zpow_zero 2).symm]
    exact zpow_le_zpow_right₀ (by norm_num) (by norm_num)
  have hhalf : (2 : ℚ) ^ e / 2 ≤ (2 : ℚ) ^ (-53 : Int) := by
    rw [div_le_iff₀ (by norm_num : (0 : ℚ) < 2)]
    rw [h5253] at h2e
    linarith
  refine ⟨m, e, hr, ?_, ?_⟩ <;> linarith

theorem stage2 (m : Nat) (e : Int) (hm : 0 < m) (hv : qVal m e ≤ 2) :
    ∃ m2 e2, pyMul100 (PyFloat.finite m e) = PyFloat.finite m2 e2 ∧
      qVal m2 e2 ≤ 100 * qVal m e + (2 : ℚ) ^ (-45 : Int) := by
  have hp1 : 0 < (mulArgs m e).1 := mulArgs_fst_pos m e hm
  have hp2 : 0 < (mulArgs m e).2 := mulArgs_snd_pos m e
  have hval := mulArgs_val m e
  have hsmall : ((mulArgs m e).1 : ℚ) / ((mulArgs m e).2 : ℚ) ≤ (2 : ℚ) ^ (8 : Int) := by
    rw [hval]
    have h28 : (2 : ℚ) ^ (8 : Int) = 256 := by
      rw [show (8 : Int) = ((8 : ℕ) : Int) by norm_num, zpow_natCast]
      norm_num
    linarith
  obtain ⟨m2, e2, hr, he2⟩ := roundF0_finite_of_le _ _ hp1 hp2 8 (by norm_num) hsmall
  have hb := (roundF0_val_bounds _ _ hp1 hp2 hr).2
  rw [hval] at hb
  have hmx : max ((8 : Int) - 52) (-1074) = -44 := by decide
  rw [hmx] at he2
  have h2e : (2 : ℚ) ^ e2 ≤ (2 : ℚ) ^ (-44 : Int) :=
    zpow_le_zpow_right₀ (by norm_num) he2
  have h4445 : (2 : ℚ) ^ (-44 : Int) = 2 * (2 : ℚ) ^ (-45 : Int) := by
    rw [show (-44 : Int) = 1 + -45 by norm_num, ← two_zpow_mul, zpow_one]
  rw [pyMul100_finite]
  exact ⟨m2, e2, hr, by linarith⟩

theorem truncF_bounds (m : Nat) (e : Int) :
    ∃ t : Nat, truncF (PyFloat.finite m e) = some t ∧
      (t : ℚ) ≤ qVal m e ∧ qVal m e < (t : ℚ) + 1 := by
  have hred : truncF (PyFloat.finite m e) =
      some (if 0 ≤ e then m * 2 ^ e.toNat else m / 2 ^ (-e).toNat) := rfl
  by_cases h : 0 ≤ e
  · refine ⟨m * 2 ^ e.toNat, by rw [hred, if_pos h], ?_, ?_⟩
    · unfold qVal
      push_cast
      rw [two_pow_toNat h]
    · unfold qVal
      push_cast
      rw [two_pow_toNat h]
      linarith [two_zpow_pos e]
  · have hkpos : 0 < 2 ^ (-e).toNat := by positivity
    have hfl : (m / 2 ^ (-e).toNat) * 2 ^ (-e).toNat ≤ m :=
      Nat.div_mul_le_self m _
    have hcl : m < (m / 2 ^ (-e).toNat + 1) * 2 ^ (-e).toNat := by
      calc m = 2 ^ (-e).toNat * (m / 2 ^ (-e).toNat) + m % 2 ^ (-e).toNat :=
            (Nat.div_add_mod m _).symm
        _ < 2 ^ (-e).toNat * (m / 2 ^ (-e).toNat) + 2 ^ (-e).toNat := by
            have := Nat.mod_lt m hkpos
            omega
        _ = (m / 2 ^ (-e).toNat + 1) * 2 ^ (-e).toNat := by ring
    have hpos : (0 : ℚ) < (2 : ℚ) ^ (-e : Int) := two_zpow_pos _
    have heq : (m : ℚ) / (2 : ℚ) ^ (-e : Int) = (m : ℚ) * (2 : ℚ) ^ e := by
      rw [div_eq_mul_inv, ← zpow_neg]
      norm_num
    refine ⟨m / 2 ^ (-e).toNat, by rw [hred, if_neg h], ?_, ?_⟩
    · have hq : ((m / 2 ^ (-e).toNat : Nat) : ℚ) * (2 : ℚ) ^ (-e).toNat ≤ (m : ℚ) := by
        exact_mod_cast hfl
      rw [two_pow_toNat_neg h] at hq
      have hdd := (le_div_iff₀ hpos).mpr hq
      unfold qVal
      rw [← heq]
      exact hdd
    · have hq : (m : ℚ) <
          (((m / 2 ^ (-e).toNat : Nat) : ℚ) + 1) * (2 : ℚ) ^ (-e).toNat := by
        exact_mod_cast hcl
      rw [two_pow_toNat_neg h] at hq
      have hdd := (div_lt_iff₀ hpos).mpr hq
      unfold qVal
      rw [← heq]
      exact hdd

theorem pyProgressExc_finite (d : Nat) (total : Int) (m : Nat) (e : Int)
    (h : roundF0 d total.natAbs = PyFloat.finite m e) :
    pyProgressExc d total =
      match truncF (pyMul100 (PyFloat.finite m e)) with
      | none => Except.error "OverflowError: cannot convert float infinity to integer"
      | some n => Except.ok (if total < 0 then -(n : Int) else (n : Int)) := by
  unfold pyProgressExc
  rw [h]

theorem pyMul100_mono (x y : PyFloat) (h : pfLe x y) :
    pfLe (pyMul100 x) (pyMul100 y) := by
  cases x with
  | inf =>
    cases y with
    | inf => exact h
    | finite my ey => exact False.elim h
  | finite mx ex =>
    cases y with
    | inf =>
      cases hx : pyMul100 (PyFloat.finite mx ex) <;> trivial
    | finite my ey =>
      have hxy : qVal mx ex ≤ qVal my ey := h
      by_cases hmx : mx = 0
      · subst hmx
        rw [pyMul100_zero]
        cases hy : pyMul100 (PyFloat.finite my ey) with
        | inf => trivial
        | finite m2 e2 =>
          show qVal 0 0 ≤ qVal m2 e2
          have h0 : qVal 0 0 = 0 := by simp [qVal]
          rw [h0]
          exact qVal_nonneg m2 e2
      · by_cases hmy : my = 0
        · exfalso
          have hpos := qVal_pos ex (Nat.pos_of_ne_zero hmx)
          have h0 : qVal my ey = 0 := by
            subst hmy
            simp [qVal]
          linarith
        · rw [pyMul100_finite, pyMul100_finite]
          apply roundF0_mono _ _ _ _ (mulArgs_fst_pos mx ex (Nat.pos_of_ne_zero hmx))
            (mulArgs_snd_pos mx ex) (mulArgs_fst_pos my ey (Nat.pos_of_ne_zero hmy))
            (mulArgs_snd_pos my ey)
          rw [mulArgs_val, mulArgs_val]
          linarith

theorem pipe_anatomy (N d : Nat) (hN : 0 < N) (hd : 0 < d) (hdN : d ≤ N) :
    ∃ (m2 : Nat) (e2 : Int) (t : Nat),
      pyMul100 (roundF0 d N) = PyFloat.finite m2 e2 ∧
      pyProgressExc d (N : Int) = Except.ok (t : Int) ∧
      (t : ℚ) ≤ qVal m2 e2 ∧ qVal m2 e2 < (t : ℚ) + 1 ∧ t ≤ 100 := by
  obtain ⟨m, e, hr, hv2, hvf⟩ := stage1 N d hN hd hdN
  have hr' : roundF0 d ((N : Int)).natAbs = PyFloat.finite m e := by
    rw [Int.natAbs_ofNat]
    exact hr
  have hneg : ¬ ((N : Int) < 0) := not_lt.mpr (Int.natCast_nonneg N)
  by_cases hm : m = 0
  · subst hm
    refine ⟨0, 0, 0, ?_, ?_, ?_, ?_, ?_⟩
    · rw [hr]
      exact pyMul100_zero e
    · rw [pyProgressExc_finite d (N : Int) 0 e hr', pyMul100_zero]
      rw [show truncF (PyFloat.finite 0 0) = some 0 from rfl]
      show Except.ok (if (N : Int) < 0 then -((0 : Nat) : Int) else ((0 : Nat) : Int)) =
        Except.ok ((0 : Nat) : Int)
      rw [if_neg hneg]
    · simp [qVal]
    · simp [qVal]
    · norm_num
  · obtain ⟨m2, e2, hr2, hub⟩ := stage2 m e (Nat.pos_of_ne_zero hm) hv2
    obtain ⟨t, ht, htle, htgt⟩ := truncF_bounds m2 e2
    have hNq : (0 : ℚ) < N := by exact_mod_cast hN
    have hd1 : (d : ℚ) / N ≤ 1 := by
      rw [div_le_one hNq]
      exact_mod_cast hdN
    have hsm : 100 * (2 : ℚ) ^ (-53 : Int) + (2 : ℚ) ^ (-45 : Int) < 1 := by
      have h53 : (2 : ℚ) ^ (-53 : Int) = ((2 : ℚ) ^ (53 : ℕ))⁻¹ := by
        rw [zpow_neg, ← zpow_natCast (2 : ℚ) 53]
        norm_num
      have h45 : (2 : ℚ) ^ (-45 : Int) = ((2 : ℚ) ^ (45 : ℕ))⁻¹ := by
        rw [zpow_neg, ← zpow_natCast (2 : ℚ) 45]
        norm_num
      rw [h53, h45]
      norm_num
    have ht101q : (t : ℚ) < 101 := by
      generalize hdn : (d : ℚ) / (N : ℚ) = dn at hvf hd1
      linarith
    have ht101 : t < 101 := by exact_mod_cast ht101q
    refine ⟨m2, e2, t, ?_, ?_, htle, htgt, by omega⟩
    · rw [hr]
      rw [pyMul100_finite] at hr2
      rw [pyMul100_finite]
      exact hr2
    · rw [pyProgressExc_finite d (N : Int) m e hr', hr2, ht]
      show Except.ok (if (N : Int) < 0 then -(t : Int) else (t : Int)) = Except.ok (t : Int)
      rw [if_neg hneg]

theorem pipe_ok (N d : Nat) (hN : 0 < N) (hd : 0 < d) (hdN : d ≤ N) :
    ∃ t : Nat, pyProgressExc d (N : Int) = Except.ok (t : Int) ∧ t ≤ 100 := by
  obtain ⟨m2, e2, t, _, hok, _, _, h100⟩ := pipe_anatomy N d hN hd hdN
  exact ⟨t, hok, h100⟩

theorem pipe_mono (N d1 d2 : Nat) (hN : 0 < N) (h1 : 0 < d1) (h12 : d1 ≤ d2)
    (h2N : d2 ≤ N) :
    exVal (pyProgressExc d1 (N : Int)) ≤ exVal (pyProgressExc d2 (N : Int)) := by
  have h2 : 0 < d2 := lt_of_lt_of_le h1 h12
  have h1N : d1 ≤ N := le_trans h12 h2N
  obtain ⟨ma, ea, t1, hma, hok1, hle1, hlt1, _⟩ := pipe_anatomy N d1 hN h1 h1N
  obtain ⟨mb, eb, t2, hmb, hok2, hle2, hlt2, _⟩ := pipe_anatomy N d2 hN h2 h2N
  have hNq : (0 : ℚ) < N := by exact_mod_cast hN
  have hratio : (d1 : ℚ) / N ≤ (d2 : ℚ) / N := by
    gcongr
  have hmono := pyMul100_mono _ _ (roundF0_mono d1 N d2 N h1 hN h2 hN hratio)
  rw [hma, hmb] at hmono
  have hq : qVal ma ea ≤ qVal mb eb := hmono
  have hqt : (t1 : ℚ) < (t2 : ℚ) + 1 := by linarith
  have ht : t1 ≤ t2 := by
    have hc : (t1 : ℚ) < ((t2 + 1 : ℕ) : ℚ) := by
      push_cast
      linarith
    have := Nat.cast_lt.mp hc
    omega
  rw [hok1, hok2]
  show (t1 : Int) ≤ (t2 : Int)
  exact_mod_cast ht

theorem findK0_self (N : Nat) (hN : 0 < N) : findK0 N N = 0 := by
  have hg : geTwoPow0 N N ((myLog2 N : Int) - (myLog2 N : Int)) = true := by
    rw [sub_self, geTwoPow0_iff N N hN]
    rw [div_self (show (N : ℚ) ≠ 0 from by exact_mod_cast hN.ne')]
    norm_num
  show (if geTwoPow0 N N ((myLog2 N : Int) - (myLog2 N : Int)) then
      ((myLog2 N : Int) - (myLog2 N : Int))
    else ((myLog2 N : Int) - (myLog2 N : Int)) - 1) = 0
  rw [hg]
  simp

theorem roundF0_self (N : Nat) (hN : 0 < N) :
    roundF0 N N = PyFloat.finite (2 ^ 52) (-52) := by
  have hk := findK0_self N hN
  have hne : ¬ N = 0 := by omega
  have he : max (findK0 N N - 52) (-1074 : Int) = -52 := by
    rw [hk]
    decide
  have hsc : scaled N N (-52) = (N * 2 ^ 52, N) := by
    unfold scaled
    rw [if_neg (by norm_num : ¬ (0 : Int) ≤ -52)]
    rw [show (-(-52 : Int)).toNat = 52 from rfl]
  have hov : ovf (2 ^ 52) (-52) = false := by
    unfold ovf
    rw [if_neg (by norm_num : ¬ (0 : Int) ≤ -52)]
    rw [decide_eq_false_iff_not]
    intro hle
    have hmul : (2 : ℕ) ^ 1024 * 2 ^ ((-(-52 : Int)).toNat) = 2 ^ 1076 := by
      rw [show (-(-52 : Int)).toNat = 52 from rfl, ← pow_add]
    rw [hmul] at hle
    have hpow : (2 : ℕ) ^ 52 < 2 ^ 1076 :=
      Nat.pow_lt_pow_right (by norm_num) (by norm_num)
    omega
  show (if N = 0 then PyFloat.finite 0 0 else
    if ovf (ne2 (scaled N N (max (findK0 N N - 52) (-1074))).1
        (scaled N N (max (findK0 N N - 52) (-1074))).2) (max (findK0 N N - 52) (-1074))
      then PyFloat.inf
      else PyFloat.finite (ne2 (scaled N N (max (findK0 N N - 52) (-1074))).1
        (scaled N N (max (findK0 N N - 52) (-1074))).2) (max (findK0 N N - 52) (-1074))) = _
  rw [if_neg hne, he, hsc]
  have hne2 : ne2 ((N * 2 ^ 52, N) : Nat × Nat).1 ((N * 2 ^ 52, N) : Nat × Nat).2 = 2 ^ 52 :=
    ne2_exact (2 ^ 52) N hN
  rw [hne2, hov]
  simp

set_option maxRecDepth 8000 in
theorem pyMul100_one : pyMul100 (PyFloat.finite (2 ^ 52) (-52)) =
    PyFloat.finite 7036874417766400 (-46) := by
  decide

theorem trunc100 : truncF (PyFloat.finite 7036874417766400 (-46)) = some 100 := by
  decide

theorem pipe_at_N (N : Nat) (hN : 0 < N) :
    pyProgressExc N ((N : Nat) : Int) = Except.ok 100 := by
  have hr' : roundF0 N ((N : Int)).natAbs = PyFloat.finite (2 ^ 52) (-52) := by
    rw [Int.natAbs_ofNat]
    exact roundF0_self N hN
  rw [pyProgressExc_finite N (N : Int) (2 ^ 52) (-52) hr', pyMul100_one, trunc100]
  show Except.ok (if (N : Int) < 0 then -((100 : Nat) : Int) else ((100 : Nat) : Int)) =
    Except.ok 100
  rw [if_neg (not_lt.mpr (Int.natCast_nonneg N))]
  norm_num

theorem downloadLoop_ok_run (N : Nat) (hN : N ≠ 0) :
    ∀ (sizes : List Nat), (∀ x ∈ sizes, x ≠ 0) →
    ∀ (d0 : Nat) (w0 : List Nat) (t0 : List Int),
    (∀ d ∈ prefixAux d0 sizes, ∃ v, pyProgressExc d (N : Int) = Except.ok v) →
      downloadLoop (N : Int) d0 w0 t0 (sizes.map ChunkEvent.ok) =
        ⟨w0 ++ sizes,
          t0 ++ (prefixAux d0 sizes).map
            (fun d => clampProgress (exVal (pyProgressExc d (N : Int)))),
          none⟩ := by
  intro sizes
  induction sizes with
  | nil =>
    intro _ d0 w0 t0 _
    simp [downloadLoop, prefixAux]
  | cons n rest ih =>
    intro hpos d0 w0 t0 hok
    have hn : n ≠ 0 := hpos n (by simp)
    have hNz : ¬((N : Int) = 0) := by simpa using hN
    obtain ⟨v, hv⟩ := hok (d0 + n) (by simp [prefixAux])
    have hsp : storedProgress (d0 + n) (N : Int) = Except.ok (clampProgress v) := by
      unfold storedProgress
      rw [hv]
      rfl
    have hval : exVal (pyProgressExc (d0 + n) (N : Int)) = v := by rw [hv]; rfl
    simp only [List.map_cons, downloadLoop, if_neg hn, if_neg hNz, hsp]
    rw [ih (fun x hx => hpos x (by simp [hx])) (d0 + n) (w0 ++ [n])
      (t0 ++ [clampProgress v]) (fun d hd => hok d (by simp [prefixAux, hd]))]
    simp [prefixAux, List.append_assoc, hval]

theorem downloadLoop_trace_mem :
    ∀ (chunks : List ChunkEvent) (total : Int) (d : Nat) (w : List Nat) (t : List Int)
      (v : Int), v ∈ (downloadLoop total d w t chunks).trace →
      v ∈ t ∨ (0 ≤ v ∧ v ≤ 100) := by
  intro chunks
  induction chunks with
  | nil =>
    intro total d w t v hv
    exact Or.inl hv
  | cons e rest ih =>
    intro total d w t v hv
    cases e with
    | fault c => exact Or.inl hv
    | ok n =>
      by_cases hn : n = 0
      · simp only [downloadLoop, if_pos hn] at hv
        exact Or.inl hv
      · by_cases ht : total = 0
        · simp only [downloadLoop, if_neg hn, if_pos ht] at hv
          exact Or.inl hv
        · cases hsp : storedProgress (d + n) total with
          | error msg =>
            simp only [downloadLoop, if_neg hn, if_neg ht, hsp] at hv
            exact Or.inl hv
          | ok pv =>
            simp only [downloadLoop, if_neg hn, if_neg ht, hsp] at hv
            rcases ih total (d + n) (w ++ [n]) (t ++ [pv]) v hv with h0 | h0
            · rcases List.mem_append.mp h0 with h1 | h1
              · exact Or.inl h1
              · right
                simp only [List.mem_singleton] at h1
                have hclamp : ∃ u, pv = clampProgress u := by
                  unfold storedProgress at hsp
                  cases hpe : pyProgressExc (d + n) total with
                  | error m2 =>
                    rw [hpe] at hsp
                    simp [Except.map] at hsp
                  | ok u =>
                    rw [hpe] at hsp
                    refine ⟨u, ?_⟩
                    simpa [Except.map] using hsp.symm
                obtain ⟨u, hu⟩ := hclamp
                rw [h1, hu]
                exact clampProgress_bounds u
            · exact Or.inr h0

theorem prefixAux_pos (l : List Nat) (hl : ∀ x ∈ l, x ≠ 0) :
    ∀ (a : Nat), ∀ d ∈ prefixAux a l, 0 < d := by
  induction l with
  | nil =>
    intro a d hd
    simp [prefixAux] at hd
  | cons n rest ih =>
    intro a d hd
    simp only [prefixAux, List.mem_cons] at hd
    rcases hd with h | h
    · have := hl n (by simp)
      omega
    · exact ih (fun x hx => hl x (by simp [hx])) (a + n) d h

theorem chain_map_mono (f : Nat → Int) :
    ∀ (l : List Nat), (∀ a ∈ l, ∀ b ∈ l, a ≤ b → f a ≤ f b) →
      List.Chain' (· ≤ ·) l → List.Chain' (· ≤ ·) (l.map f) := by
  intro l
  induction l with
  | nil =>
    intro _ _
    simp
  | cons a t ih =>
    intro hm hch
    cases t with
    | nil => simp
    | cons b t2 =>
      rw [List.map_cons, List.map_cons, List.chain'_cons]
      rw [List.chain'_cons] at hch
      refine ⟨hm a (by simp) b (by simp) hch.1, ?_⟩
      rw [← List.map_cons]
      exact ih (fun x hx y hy hxy => hm x (List.mem_cons_of_mem a hx)
        y (List.mem_cons_of_mem a hy) hxy) hch.2

/-! ### Claim theorems -/

/-- C1: when the selected pose identifier is `T` and the import step
produced a skeletal object, the post-import step resets each joint of
the fixed name list that exists on the skeleton: its rotation mode
becomes Euler (`"XYZ"`) and all three axis angles become exactly zero;
every other joint is left untouched, no joint is added or removed, and
a skeleton lacking some or all of the fixed names (or no skeleton at
all) causes no failure. -/
theorem C1_normalize_t_pose (bones : List PoseBone) :
    postImport "T" none = none ∧
    postImport "T" (some bones) = some (normalizeToTPose bones) ∧
    (normalizeToTPose bones).length = bones.length ∧
    (∀ b ∈ bones, b.name ∈ fixedJointNames →
      { b with rotation_mode := "XYZ", rotation_euler := (0, 0, 0) } ∈
        normalizeToTPose bones) ∧
    (∀ b ∈ bones, b.name ∉ fixedJointNames → b ∈ normalizeToTPose bones) ∧
    ((∀ b ∈ bones, b.name ∉ fixedJointNames) → normalizeToTPose bones = bones) := by
  refine ⟨rfl, rfl, by simp [normalizeToTPose], ?_, ?_, ?_⟩
  · intro b hb hname
    refine List.mem_map.mpr ⟨b, hb, ?_⟩
    rw [if_pos (List.elem_eq_true_of_mem hname)]
  · intro b hb hname
    refine List.mem_map.mpr ⟨b, hb, ?_⟩
    rw [if_neg (by simpa using hname)]
  · intro hall
    unfold normalizeToTPose
    have hid : ∀ b ∈ bones,
        (if fixedJointNames.contains b.name then
          { b with rotation_mode := "XYZ", rotation_euler := ((0 : Int), 0, 0) }
        else b) = b := by
      intro b hb
      rw [if_neg (by simpa using hall b hb)]
    rw [List.map_congr_left hid]
    simp

/-- Witness for C1 at a concrete two-bone skeleton: the left-arm joint
is reset, the unrelated joint keeps its rotation. -/
theorem C1_normalize_t_pose_witness :
    PoseBone.mk "LeftArm" "XYZ" (0, 0, 0) ∈
      normalizeToTPose [PoseBone.mk "LeftArm" "QUATERNION" (1, 2, 3),
        PoseBone.mk "Spine" "XYZ" (4, 5, 6)] ∧
    PoseBone.mk "Spine" "XYZ" (4, 5, 6) ∈
      normalizeToTPose [PoseBone.mk "LeftArm" "QUATERNION" (1, 2, 3),
        PoseBone.mk "Spine" "XYZ" (4, 5, 6)] := by
  constructor
  · exact (C1_normalize_t_pose _).2.2.2.1 (PoseBone.mk "LeftArm" "QUATERNION" (1, 2, 3))
      (by simp) (by decide)
  · exact (C1_normalize_t_pose _).2.2.2.2.1 (PoseBone.mk "Spine" "XYZ" (4, 5, 6))
      (by simp) (by decide)

/-- C2 (code bug): with a whitespace-only base URL, the operator does
not cancel and does not skip the network: the `?` appended at line 39
makes `final_url` non-empty before the emptiness guard at line 40, so
`urlopen` is called on the URL `"?pose=T"` and the only reported failure
comes from the network call itself, while the claim requires an
empty-URL error and a cancelled result before any network access. -/
theorem C2_empty_url_not_short_circuited :
    (execute (Scene.mk "   " "T" false false false false)
        (World.mk (UrlopenResult.fail "connection refused") none)).status =
      Status.FINISHED ∧
    (execute (Scene.mk "   " "T" false false false false)
        (World.mk (UrlopenResult.fail "connection refused") none)).requests =
      ["?pose=T"] ∧
    (execute (Scene.mk "   " "T" false false false false)
        (World.mk (UrlopenResult.fail "connection refused") none)).error =
      some (errPrefix ++ "connection refused") := by
  decide

/-- C3 counterexample: on a response without a Content-Length header the
download does not proceed and does not complete: no destination file is
created, no progress is stored, and the operation reports an error. -/
theorem C3_counterexample :
    (execute (Scene.mk "https://e/m.glb" "T" false false false false)
        (World.mk (UrlopenResult.conn (Response.mk none [ChunkEvent.ok 5])) none)).file =
      none ∧
    (execute (Scene.mk "https://e/m.glb" "T" false false false false)
        (World.mk (UrlopenResult.conn (Response.mk none [ChunkEvent.ok 5])) none)).progressTrace =
      [] ∧
    (execute (Scene.mk "https://e/m.glb" "T" false false false false)
        (World.mk (UrlopenResult.conn (Response.mk none [ChunkEvent.ok 5])) none)).error ≠
      none := by
  decide

/-- C3 (amended): when the response supplies no Content-Length header,
the attribute access at line 50 raises before the destination file is
opened and before any chunk is read, so the operation aborts with a
reported error (no division by an unknown quantity ever happens); it
does not proceed with the download. -/
theorem C3_no_content_length_aborts (s : Scene) (w : World) (resp : Response)
    (h1 : w.urlopen = UrlopenResult.conn resp) (h2 : resp.contentLength = none) :
    (execute s w).file = none ∧
    (execute s w).progressTrace = [] ∧
    (execute s w).status = Status.FINISHED ∧
    (execute s w).error =
      some (errPrefix ++ "AttributeError: NoneType object has no attribute strip") := by
  have hexec : execute s w =
      ⟨Status.FINISHED, [finalURL s], none, [],
        some (errPrefix ++ "AttributeError: NoneType object has no attribute strip")⟩ := by
    simp only [execute, h1, h2]
    rw [if_neg (finalURL_ne_empty s)]
  rw [hexec]
  exact ⟨rfl, rfl, rfl, rfl⟩

/-- Witness for C3 at a concrete scene and response without the
Content-Length header. -/
theorem C3_no_content_length_aborts_witness :
    (execute (Scene.mk "https://e/m.glb" "A" false false false false)
        (World.mk (UrlopenResult.conn (Response.mk none [ChunkEvent.ok 7])) none)).file =
      none ∧
    (execute (Scene.mk "https://e/m.glb" "A" false false false false)
        (World.mk (UrlopenResult.conn (Response.mk none [ChunkEvent.ok 7])) none)).progressTrace =
      [] ∧
    (execute (Scene.mk "https://e/m.glb" "A" false false false false)
        (World.mk (UrlopenResult.conn (Response.mk none [ChunkEvent.ok 7])) none)).status =
      Status.FINISHED ∧
    (execute (Scene.mk "https://e/m.glb" "A" false false false false)
        (World.mk (UrlopenResult.conn (Response.mk none [ChunkEvent.ok 7])) none)).error =
      some (errPrefix ++ "AttributeError: NoneType object has no attribute strip") :=
  C3_no_content_length_aborts
    (Scene.mk "https://e/m.glb" "A" false false false false)
    (World.mk (UrlopenResult.conn (Response.mk none [ChunkEvent.ok 7])) none)
    (Response.mk none [ChunkEvent.ok 7]) rfl rfl

/-- C4 counterexample: with the ARKit and Oculus-Visemes toggles set and
pose `T`, the query string is `morphTargets=ARKit%2COculus+Visemes&pose=T`:
`urlencode` percent-encodes the comma as `%2C` and the space of the tag
`"Oculus Visemes"` as `+`, so the query does not contain the claimed
comma-joined `morphTargets=ARKit,OculusVisemes` (it contains no comma at
all). -/
theorem C4_counterexample :
    queryString (Scene.mk "https://e/m.glb" "T" true true false false) =
      "morphTargets=ARKit%2COculus+Visemes&pose=T" ∧
    queryString (Scene.mk "https://e/m.glb" "T" true true false false) ≠
      "morphTargets=ARKit,OculusVisemes&pose=T" ∧
    ((queryString (Scene.mk "https://e/m.glb" "T" true true false false)).toList.contains
      ',') = false := by
  decide

/-- C4 (amended): for every scene with a non-empty trimmed base URL, the
request URL is exactly the trimmed base URL, one `?`, and the query
string (the `?` is present even when the query string is empty); the
query string equals the claim-side form `specQuery`: it carries
`morphTargets=` followed by the selected tags of the fixed vocabulary
`ARKit`, `Oculus Visemes`, `mouthSmile`, `mouthOpen` joined with commas
in checklist order and then `quote_plus`-encoded (comma becomes `%2C`,
space becomes `+`) iff at least one tag toggle is set, and `pose=`
followed by the encoded upper-cased pose iff the pose string is
non-empty. -/
theorem C4_request_url (s : Scene) (hbase : pyStrip s.readyplayer_url ≠ "") :
    finalURL s = pyStrip s.readyplayer_url ++ "?" ++ queryString s ∧
    queryString s = specQuery (morphTargets s) (pyUpper s.readyplayer_pose) ∧
    (∀ t ∈ morphTargets s,
      t ∈ ["ARKit", "Oculus Visemes", "mouthSmile", "mouthOpen"]) ∧
    (morphTargets s = [] ↔
      s.morph_target_arkit = false ∧ s.morph_target_oculus_visemes = false ∧
      s.morph_target_mouth_smile = false ∧ s.morph_target_mouth_open = false) := by
  refine ⟨rfl, urlencode_queryParams _ _, ?_, ?_⟩
  · rcases s with ⟨u, p, a, o, msm, mo⟩
    cases a <;> cases o <;> cases msm <;> cases mo <;> simp [morphTargets]
  · rcases s with ⟨u, p, a, o, msm, mo⟩
    cases a <;> cases o <;> cases msm <;> cases mo <;> simp [morphTargets]

set_option maxRecDepth 8000 in
/-- C5 (counterexample): the claimed report value floor(min(bytesSoFar, N) / N * 100)
is not what the program stores.  At N = 100 total bytes with chunks of 29
and 71 bytes, the first stored value is 28, while the claimed exact floor
at 29 of 100 bytes is 29: CPython evaluates `29 / 100 * 100` in binary64
doubles as 28.999999999999996, and `int()` truncates it to 28. -/
theorem C5_counterexample :
    (downloadLoop ((100 : Nat) : Int) 0 [] [] [ChunkEvent.ok 29, ChunkEvent.ok 71]).trace =
      [28, 100] ∧ ((min 29 100 * 100 / 100 : Nat) : Int) = 29 := by
  constructor
  · decide
  · decide

/-- C5 (amended): for a download whose server-supplied total is `N > 0`,
delivered completely in non-empty chunks summing to `N`, the read/write
loop finishes with no fault; the successive values stored into the
progress property are exactly the CPython binary64 computations
`int(min(bytesSoFar, N) / N * 100)` after each chunk (which can fall one
below the exact floor, as at 29 of 100 bytes); the stored sequence is
non-decreasing; and the final stored value is exactly 100. -/
theorem C5_progress_float (N : Nat) (sizes : List Nat) (hN : 0 < N)
    (hpos : ∀ x ∈ sizes, x ≠ 0) (hsum : sizes.sum = N) :
    (downloadLoop (N : Int) 0 [] [] (sizes.map ChunkEvent.ok)).fault = none ∧
    (downloadLoop (N : Int) 0 [] [] (sizes.map ChunkEvent.ok)).trace =
      (prefixAux 0 sizes).map (fun d => specPct d N) ∧
    List.Chain' (· ≤ ·) ((downloadLoop (N : Int) 0 [] [] (sizes.map ChunkEvent.ok)).trace) ∧
    ((downloadLoop (N : Int) 0 [] [] (sizes.map ChunkEvent.ok)).trace).getLast? =
      some 100 := by
  have hmemle : ∀ d ∈ prefixAux 0 sizes, d ≤ N := by
    intro d hd
    have := mem_prefixAux_le sizes 0 d hd
    omega
  have hmempos : ∀ d ∈ prefixAux 0 sizes, 0 < d := prefixAux_pos sizes hpos 0
  have hok : ∀ d ∈ prefixAux 0 sizes, ∃ v, pyProgressExc d (N : Int) = Except.ok v := by
    intro d hd
    obtain ⟨t, ht, _⟩ := pipe_ok N d hN (hmempos d hd) (hmemle d hd)
    exact ⟨t, ht⟩
  have hrun := downloadLoop_ok_run N (by omega) sizes hpos 0 [] [] hok
  have htr : (downloadLoop (N : Int) 0 [] [] (sizes.map ChunkEvent.ok)).trace =
      (prefixAux 0 sizes).map (fun d => clampProgress (exVal (pyProgressExc d (N : Int)))) := by
    rw [hrun]
    simp
  have hmap : (prefixAux 0 sizes).map
        (fun d => clampProgress (exVal (pyProgressExc d (N : Int)))) =
      (prefixAux 0 sizes).map (fun d => specPct d N) := by
    apply List.map_congr_left
    intro d hd
    obtain ⟨t, ht, h100⟩ := pipe_ok N d hN (hmempos d hd) (hmemle d hd)
    have hmin : min d N = d := min_eq_left (hmemle d hd)
    unfold specPct
    rw [hmin, ht]
    show clampProgress (t : Int) = (t : Int)
    exact clampProgress_eq_self (Int.natCast_nonneg t) (by exact_mod_cast h100)
  have htr2 : (downloadLoop (N : Int) 0 [] [] (sizes.map ChunkEvent.ok)).trace =
      (prefixAux 0 sizes).map (fun d => specPct d N) := by
    rw [htr, hmap]
  have hchain : List.Chain' (· ≤ ·) ((prefixAux 0 sizes).map (fun d => specPct d N)) := by
    apply chain_map_mono
    · intro a ha b hb hab
      show specPct a N ≤ specPct b N
      unfold specPct
      rw [min_eq_left (hmemle a ha), min_eq_left (hmemle b hb)]
      exact pipe_mono N a b hN (hmempos a ha) hab (hmemle b hb)
    · exact (prefixAux_chain sizes 0).1
  have hne : sizes ≠ [] := by
    intro hcon
    rw [hcon] at hsum
    simp at hsum
    omega
  have hlastp := prefixAux_getLast sizes 0 hne
  have hlast : ((prefixAux 0 sizes).map (fun d => specPct d N)).getLast? = some 100 := by
    rw [List.getLast?_map, hlastp]
    have hval : specPct sizes.sum N = 100 := by
      unfold specPct
      rw [hsum, min_self, pipe_at_N N hN]
      rfl
    simp [hval]
  refine ⟨?_, htr2, ?_, ?_⟩
  · rw [hrun]
  · rw [htr2]
    exact hchain
  · rw [htr2]
    exact hlast

/-- C5 (witness): the amended statement instantiated at a 100-byte
download delivered in chunks of 29 and 71 bytes. -/
theorem C5_progress_float_witness :
    (downloadLoop ((100 : Nat) : Int) 0 [] [] ([29, 71].map ChunkEvent.ok)).fault = none ∧
    (downloadLoop ((100 : Nat) : Int) 0 [] [] ([29, 71].map ChunkEvent.ok)).trace =
      (prefixAux 0 [29, 71]).map (fun d => specPct d 100) ∧
    List.Chain' (· ≤ ·)
      ((downloadLoop ((100 : Nat) : Int) 0 [] [] ([29, 71].map ChunkEvent.ok)).trace) ∧
    ((downloadLoop ((100 : Nat) : Int) 0 [] [] ([29, 71].map ChunkEvent.ok)).trace).getLast? =
      some 100 :=
  C5_progress_float 100 [29, 71] (by norm_num) (by decide) (by decide)

/-- Witness for C4 at a concrete scene with one toggle set. -/
theorem C4_request_url_witness :
    pyStrip (Scene.mk " https://e/m.glb " "T" true false false false).readyplayer_url ≠ "" ∧
    finalURL (Scene.mk " https://e/m.glb " "T" true false false false) =
      pyStrip (Scene.mk " https://e/m.glb " "T" true false false false).readyplayer_url ++
        "?" ++ queryString (Scene.mk " https://e/m.glb " "T" true false false false) :=
  ⟨by decide,
    (C4_request_url (Scene.mk " https://e/m.glb " "T" true false false false)
      (by decide)).1⟩

theorem execute_result (s : Scene) (w : World) :
    (execute s w).status = Status.FINISHED ∧ (execute s w).requests = [finalURL s] := by
  have h := finalURL_ne_empty s
  rcases w with ⟨uo, imp⟩
  rcases uo with resp | cause
  · rcases resp with ⟨cl, chunks⟩
    rcases cl with _ | header
    · simp only [execute]
      rw [if_neg h]
      exact ⟨rfl, rfl⟩
    · rcases hpi : pyInt (pyStrip header) with _ | total
      · simp only [execute, hpi]
        rw [if_neg h]
        exact ⟨rfl, rfl⟩
      · rcases hf : (downloadLoop total 0 [] [] chunks).fault with _ | c
        · rcases imp with _ | ic
          · simp only [execute, hpi, hf]
            rw [if_neg h]
            exact ⟨rfl, rfl⟩
          · simp only [execute, hpi, hf]
            rw [if_neg h]
            exact ⟨rfl, rfl⟩
        · simp only [execute, hpi, hf]
          rw [if_neg h]
          exact ⟨rfl, rfl⟩
  · simp only [execute]
    rw [if_neg h]
    exact ⟨rfl, rfl⟩

/-- C6: the destination filename is the text after the last `/` of the
request URL with everything from the following `?` onward stripped; in
particular the claim's concrete example holds. -/
theorem C6_derive_filename :
    (∀ u : String, deriveFilename u = specFilename u) ∧
    deriveFilename "https://x.example/path/model.glb?pose=T" = "model.glb" :=
  ⟨deriveFilename_eq_spec, by decide⟩

/-- C7: on any fault the operation aborts after its single `urlopen`
request (no retry), the partially or fully written destination file is
left in place (no cleanup), and the reported error message carries the
`errPrefix` text followed by the underlying cause: this covers a raised
connection failure or non-2xx `HTTPError`, a fault inside the read/write
loop, and a failing import step. -/
theorem C7_fault_no_retry_no_cleanup (s : Scene) (w : World) :
    (∀ cause, w.urlopen = UrlopenResult.fail cause →
      (execute s w).error = some (errPrefix ++ cause) ∧
      (execute s w).file = none ∧
      (execute s w).requests = [finalURL s]) ∧
    (∀ resp header total, w.urlopen = UrlopenResult.conn resp →
      resp.contentLength = some header → pyInt (pyStrip header) = some total →
      (∀ c, (downloadLoop total 0 [] [] resp.chunks).fault = some c →
        (execute s w).error = some (errPrefix ++ c) ∧
        (execute s w).file = some (deriveFilename (finalURL s),
          (downloadLoop total 0 [] [] resp.chunks).written) ∧
        (execute s w).requests = [finalURL s]) ∧
      ((downloadLoop total 0 [] [] resp.chunks).fault = none →
        ∀ ic, w.importFault = some ic →
          (execute s w).error = some (errPrefix ++ ic) ∧
          (execute s w).file = some (deriveFilename (finalURL s),
            (downloadLoop total 0 [] [] resp.chunks).written) ∧
          (execute s w).requests = [finalURL s])) := by
  constructor
  · intro cause h1
    have hexec : execute s w = ⟨Status.FINISHED, [finalURL s], none, [],
        some (errPrefix ++ cause)⟩ := by
      simp only [execute, h1]
      rw [if_neg (finalURL_ne_empty s)]
    rw [hexec]
    exact ⟨rfl, rfl, rfl⟩
  · intro resp header total h1 h2 h3
    constructor
    · intro c hc
      have hexec : execute s w = ⟨Status.FINISHED, [finalURL s],
          some (deriveFilename (finalURL s),
            (downloadLoop total 0 [] [] resp.chunks).written),
          (downloadLoop total 0 [] [] resp.chunks).trace,
          some (errPrefix ++ c)⟩ := by
        simp only [execute, h1, h2, h3, hc]
        rw [if_neg (finalURL_ne_empty s)]
      rw [hexec]
      exact ⟨rfl, rfl, rfl⟩
    · intro hnone ic hic
      have hexec : execute s w = ⟨Status.FINISHED, [finalURL s],
          some (deriveFilename (finalURL s),
            (downloadLoop total 0 [] [] resp.chunks).written),
          (downloadLoop total 0 [] [] resp.chunks).trace,
          some (errPrefix ++ ic)⟩ := by
        simp only [execute, h1, h2, h3, hnone, hic]
        rw [if_neg (finalURL_ne_empty s)]
      rw [hexec]
      exact ⟨rfl, rfl, rfl⟩

set_option maxRecDepth 8000 in
/-- Witness for C7: a disk-write fault after the first of two chunks
leaves the partial file and reports the cause. -/
theorem C7_fault_witness :
    (execute (Scene.mk "https://e/m.glb" "A" false false false false)
        (World.mk (UrlopenResult.conn (Response.mk (some "10")
          [ChunkEvent.ok 4, ChunkEvent.fault "disk full"])) none)).error =
      some (errPrefix ++ "disk full") ∧
    (execute (Scene.mk "https://e/m.glb" "A" false false false false)
        (World.mk (UrlopenResult.conn (Response.mk (some "10")
          [ChunkEvent.ok 4, ChunkEvent.fault "disk full"])) none)).file =
      some (deriveFilename (finalURL (Scene.mk "https://e/m.glb" "A" false false false false)),
        (downloadLoop 10 0 [] [] [ChunkEvent.ok 4, ChunkEvent.fault "disk full"]).written) ∧
    (execute (Scene.mk "https://e/m.glb" "A" false false false false)
        (World.mk (UrlopenResult.conn (Response.mk (some "10")
          [ChunkEvent.ok 4, ChunkEvent.fault "disk full"])) none)).requests =
      [finalURL (Scene.mk "https://e/m.glb" "A" false false false false)] :=
  ((C7_fault_no_retry_no_cleanup (Scene.mk "https://e/m.glb" "A" false false false false)
      (World.mk (UrlopenResult.conn (Response.mk (some "10")
        [ChunkEvent.ok 4, ChunkEvent.fault "disk full"])) none)).2
    (Response.mk (some "10") [ChunkEvent.ok 4, ChunkEvent.fault "disk full"]) "10" 10
    rfl rfl (by decide)).1 "disk full" (by decide)

/-- C8: within one download the byte counter is non-decreasing across
loop iterations (each iteration adds the non-negative length of the
chunk just written), and every progress value stored into the clamped
`download_progress` property lies in `[0, 100]`. -/
theorem C8_counter_monotone_progress_clamped (total : Int) (chunks : List ChunkEvent) :
    List.Chain' (· ≤ ·) (prefixAux 0 (downloadLoop total 0 [] [] chunks).written) ∧
    ∀ v ∈ (downloadLoop total 0 [] [] chunks).trace, 0 ≤ v ∧ v ≤ 100 := by
  constructor
  · exact (prefixAux_chain _ 0).1
  · intro v hv
    rcases downloadLoop_trace_mem chunks total 0 [] [] v hv with h0 | h0
    · simp at h0
    · exact h0

set_option maxRecDepth 8000 in
/-- Witness for C8 at a concrete trace value. -/
theorem C8_counter_witness :
    (40 : Int) ∈ (downloadLoop 10 0 [] [] [ChunkEvent.ok 4, ChunkEvent.ok 6]).trace ∧
    (0 ≤ (40 : Int) ∧ (40 : Int) ≤ 100) :=
  ⟨by decide,
    (C8_counter_monotone_progress_clamped 10 [ChunkEvent.ok 4, ChunkEvent.ok 6]).2 40
      (by decide)⟩

/-- C9: for every scene and every behavior of the network, filesystem
and import step, `execute` returns FINISHED: all failures inside the try
block are only reported as messages, and the lone CANCELLED branch (the
empty-final-URL guard) is never taken. -/
theorem C9_always_finished (s : Scene) (w : World) :
    (execute s w).status = Status.FINISHED :=
  (execute_result s w).1

/-- C10: the empty-URL guard is unreachable: the `?` appended at line 39
makes the final URL non-empty for every base URL, so the operator never
returns CANCELLED and always passes the final URL to `urlopen` exactly
once; with an empty or whitespace-only base URL that request is made on
`?` followed by the query string. -/
theorem C10_guard_unreachable (s : Scene) (w : World) :
    finalURL s ≠ "" ∧
    (execute s w).status ≠ Status.CANCELLED ∧
    (execute s w).requests = [finalURL s] ∧
    (pyStrip s.readyplayer_url = "" → finalURL s = "?" ++ queryString s) := by
  refine ⟨finalURL_ne_empty s, ?_, (execute_result s w).2, ?_⟩
  · rw [(execute_result s w).1]
    simp
  · intro h0
    unfold finalURL
    rw [h0, String.empty_append]

/-- Witness for C10 at the empty base URL. -/
theorem C10_guard_witness :
    pyStrip (Scene.mk "" "T" false false false false).readyplayer_url = "" ∧
    finalURL (Scene.mk "" "T" false false false false) =
      "?" ++ queryString (Scene.mk "" "T" false false false false) :=
  ⟨by decide,
    (C10_guard_unreachable (Scene.mk "" "T" false false false false)
      (World.mk (UrlopenResult.fail "no host given") none)).2.2.2 (by decide)⟩
